import Mathlib

/-!
Shallow embedding of the retrieval core of the talk-to-lenny repository:

* the chat route (src/app/api/chat/route.ts): the LLM search planner
  (`planSearch`), the multi-query fusion engine (`multiQuerySearch`) and
  the source-citation assembly of the global-chat branch of `POST`;
* the search route (src/app/api/search/route.ts): hybrid
  semantic/text episode search;
* the ingestion chunker (`chunkTranscript` from the create-chunks script).

Modelling conventions.  External capabilities (the Supabase store and the
OpenAI embedding / completion APIs) are explicit function-valued records;
a call that can throw is a function into `Option` (`none` = the call threw).
JavaScript `Map` / `Set` objects are insertion-ordered association lists,
mirroring their iteration-order semantics, and the stable
`Array.prototype.sort` is insertion sort (stable, same tie behaviour).
JS numbers (similarity scores) are rationals; JS strings are Lean
`String`s, compared through their character lists (code-point
lexicographic order, which agrees with the JS comparison on the ASCII
data handled here).  Transcript text inside the chunker is `List Char`.
-/

/-- A chunk row returned by the `match_chunks` RPC
(source: `interface ChunkMatch` in the chat route). -/
structure ChunkMatch where
  id : String
  episode_id : String
  content : String
  chunk_index : Nat
  start_timestamp : Option String
  speaker : Option String
  similarity : ℚ
deriving DecidableEq

/-- An episode metadata row as selected by `getEpisodeDetails` /
`textSearchEpisodes` (source: `interface EpisodeDetail`). -/
structure EpisodeDetail where
  id : String
  title : String
  slug : String
  guest_name : String
  summary : Option String
deriving DecidableEq

/-- The external capabilities the chat route consumes.  `getEmbedding`
returns `none` when the embedding call throws; `searchChunks` already
absorbs store errors by returning `[]` (as the source function does), so
it is total.  Arguments of `searchChunks`: embedding, optional episode
filter, match count. -/
structure ChatStore where
  getEmbedding : String → Option (List ℚ)
  searchChunks : List ℚ → Option String → Nat → List ChunkMatch
  textSearchEpisodes : String → Nat → List EpisodeDetail
  getEpisodeDetails : List String → List EpisodeDetail

/-- JS `Map.set` keyed by chunk id on an insertion-ordered association
list: replace in place if the key is present, append otherwise. -/
def mapSet : List ChunkMatch → ChunkMatch → List ChunkMatch
  | [], c => [c]
  | e :: rest, c => if e.id = c.id then c :: rest else e :: mapSet rest c

/-- JS `Map.get` keyed by chunk id. -/
def mapGet (m : List ChunkMatch) (i : String) : Option ChunkMatch :=
  m.find? (fun e => e.id = i)

/-- JS `Set.add` on an insertion-ordered list. -/
def setAdd (s : List String) (x : String) : List String :=
  if x ∈ s then s else s ++ [x]

/-- The dedup condition of the fusion loop:
`!allChunks.has(chunk.id) || chunk.similarity > allChunks.get(chunk.id)!.similarity`. -/
def keepChunk (m : List ChunkMatch) (c : ChunkMatch) : Bool :=
  match mapGet m c.id with
  | none => true
  | some e => decide (e.similarity < c.similarity)

/-- The two accumulators of `multiQuerySearch`: the `allChunks` map and
the `relevantEpisodeIds` set. -/
structure FuseState where
  allChunks : List ChunkMatch
  relevantEpisodeIds : List String
deriving DecidableEq

/-- One iteration of the fusion loop body over a single returned chunk. -/
def fuseChunk (st : FuseState) (c : ChunkMatch) : FuseState :=
  if keepChunk st.allChunks c then
    ⟨mapSet st.allChunks c, setAdd st.relevantEpisodeIds c.episode_id⟩
  else st

/-- The per-query fan-out of `multiQuerySearch`: embed the query, then
either one `searchChunks` call per filtered episode (count 8) or one
broad call (count 10).  A thrown embedding is caught, logged and the
query skipped, contributing no chunks. -/
def queryResults (store : ChatStore) (filterIds : Option (List String)) (q : String) :
    List ChunkMatch :=
  match store.getEmbedding q with
  | none => []
  | some embedding =>
    match filterIds with
    | some ids => (ids.map (fun epId => store.searchChunks embedding (some epId) 8)).flatten
    | none => store.searchChunks embedding none 10

/-- Guest-filter resolution at the top of `multiQuerySearch`:
`textSearchEpisodes(supabase, guestFilter, 5)`; the episode-id filter is
installed only when that returns at least one episode. -/
def resolveGuestFilter (store : ChatStore) (guestFilter : Option String) :
    Option (List String) :=
  match guestFilter with
  | none => none
  | some g =>
    let guestEpisodes := store.textSearchEpisodes g 5
    if 0 < guestEpisodes.length then some (guestEpisodes.map (fun e => e.id)) else none

/-- The descending-similarity comparison of the final
`.sort((a, b) => b.similarity - a.similarity)`. -/
def simDesc (a b : ChunkMatch) : Prop := b.similarity ≤ a.similarity

instance : DecidableRel simDesc :=
  fun a b => inferInstanceAs (Decidable (b.similarity ≤ a.similarity))

instance : IsTotal ChunkMatch simDesc := ⟨fun a b => le_total b.similarity a.similarity⟩

instance : IsTrans ChunkMatch simDesc := ⟨fun _ _ _ h h' => le_trans h' h⟩

/-- `multiQuerySearch(supabase, queries, guestFilter, limit)`: resolve the
guest filter, fuse all per-query results through the dedup map, sort the
deduplicated chunks by descending similarity (stable, as JS `sort`),
truncate to `limit`, and batch-fetch the episode details of every id in
`relevantEpisodeIds`. -/
def multiQuerySearch (store : ChatStore) (queries : List String)
    (guestFilter : Option String) (limit : Nat) :
    List ChunkMatch × List EpisodeDetail :=
  let filterIds := resolveGuestFilter store guestFilter
  let st := queries.foldl
    (fun s q => (queryResults store filterIds q).foldl fuseChunk s) ⟨[], []⟩
  let sortedChunks := (List.insertionSort simDesc st.allChunks).take limit
  let episodes :=
    if 0 < st.relevantEpisodeIds.length
    then store.getEpisodeDetails st.relevantEpisodeIds else []
  (sortedChunks, episodes)

/-- All per-query search results of one `multiQuerySearch` run, flattened
in processing order: the per-query result lists the fusion loop consumes. -/
def allQueryResults (store : ChatStore) (queries : List String)
    (guestFilter : Option String) : List ChunkMatch :=
  (queries.map (queryResults store (resolveGuestFilter store guestFilter))).flatten

/-- The search plan produced by the planner (source: `interface SearchPlan`).
`searchMode` is a plain string, as the JS value is whatever truthy string
the completion supplied. -/
structure SearchPlan where
  searchQueries : List String
  guestFilter : Option String
  searchMode : String
  intent : String
deriving DecidableEq

/-- The JSON object extracted from the planner completion text, after
`JSON.parse`.  Each field is optional: `none` models an absent or `null`
(falsy) field, `some` a present value of the expected type. -/
structure PlannerJson where
  searchQueries : Option (List String)
  guestFilter : Option String
  searchMode : Option String
  intent : Option String
deriving DecidableEq

/-- Outcome of the planning completion call as observed by `planSearch`:
the fetch / body read / `JSON.parse` threw, the response was not ok, the
content matched no `{...}` block, or a JSON object was parsed. -/
inductive PlannerOutcome
  | threw
  | notOk
  | noJsonObject
  | parsed (p : PlannerJson)
deriving DecidableEq

/-- JS truthiness of an optional string field (`x || null`): an absent,
`null` or empty-string value is falsy. -/
def jsStringOrNull (s : Option String) : Option String :=
  match s with
  | some s => if s.isEmpty then none else some s
  | none => none

/-- The degenerate plan `planSearch` falls back to on every failure path. -/
def fallbackPlan (message : String) : SearchPlan :=
  { searchQueries := [message], guestFilter := none, searchMode := "broad",
    intent := message }

/-- `planSearch(message, history)`.  The history only feeds the prompt
sent to the completion capability, whose observed result is `outcome`;
`hasApiKey` models the `OPENAI_API_KEY` guard.  On a parsed JSON object
the fields are defaulted with JS `||`: a missing/falsy field falls back,
but any truthy value — including an *empty array* for `searchQueries` —
is kept as-is. -/
def planSearch (hasApiKey : Bool) (message : String)
    (_history : List (String × String)) (outcome : PlannerOutcome) : SearchPlan :=
  if hasApiKey then
    match outcome with
    | .parsed p =>
      { searchQueries := p.searchQueries.getD [message]
        guestFilter := jsStringOrNull p.guestFilter
        searchMode := (jsStringOrNull p.searchMode).getD "broad"
        intent := (jsStringOrNull p.intent).getD message }
    | _ => fallbackPlan message
  else fallbackPlan message

/-- C3: on a thrown completion call, a non-OK HTTP status, or content
with no JSON object, `planSearch` returns exactly the degenerate plan
`{searchQueries: [message], guestFilter: null, searchMode: "broad",
intent: message}`. -/
theorem planSearch_failure_fallback (message : String)
    (history : List (String × String)) (outcome : PlannerOutcome)
    (h : outcome = .threw ∨ outcome = .notOk ∨ outcome = .noJsonObject) :
    planSearch true message history outcome =
      { searchQueries := [message], guestFilter := none, searchMode := "broad",
        intent := message } := by
  rcases h with h | h | h <;> subst h <;> rfl

/-- Witness for C3 at a concrete message, history and outcome. -/
theorem planSearch_failure_fallback_witness :
    (PlannerOutcome.threw = .threw ∨ PlannerOutcome.threw = .notOk ∨
      PlannerOutcome.threw = .noJsonObject) ∧
    planSearch true "who is Brian Chesky" [("user", "hi")] .threw =
      { searchQueries := ["who is Brian Chesky"], guestFilter := none,
        searchMode := "broad", intent := "who is Brian Chesky" } :=
  ⟨Or.inl rfl,
   planSearch_failure_fallback "who is Brian Chesky" [("user", "hi")] .threw (Or.inl rfl)⟩

/-- C2: the code violates the claimed invariant.  A completion whose
extracted JSON object contains an *empty* `searchQueries` array slips
through the `parsed.searchQueries || [message]` default (an empty JS
array is truthy), so the returned plan has an empty query list and the
fusion engine receives zero queries. -/
theorem planSearch_empty_queries_bug :
    (planSearch true "What did Brian Chesky say about hiring?" []
      (.parsed { searchQueries := some [], guestFilter := none,
                 searchMode := none, intent := none })).searchQueries = [] := rfl

/-- C4: when the guest filter resolves to zero episodes, `multiQuerySearch`
behaves exactly as with a null filter (the unfiltered broad search path),
rather than returning an empty result set. -/
theorem multiQuerySearch_guest_fallback (store : ChatStore) (queries : List String)
    (g : String) (limit : Nat) (h : store.textSearchEpisodes g 5 = []) :
    multiQuerySearch store queries (some g) limit =
      multiQuerySearch store queries none limit := by
  unfold multiQuerySearch resolveGuestFilter
  simp [h]

/-- A concrete store for the C4 witness: text search resolves no guest,
broad chunk search returns one chunk. -/
def storeC4 : ChatStore :=
  { getEmbedding := fun _ => some [1]
    searchChunks := fun _ epFilter _ =>
      match epFilter with
      | none => [⟨"c1", "e1", "hello", 0, none, none, 1⟩]
      | some _ => []
    textSearchEpisodes := fun _ _ => []
    getEpisodeDetails := fun ids => ids.map (fun i => ⟨i, "T", "s", "G", none⟩) }

/-- Witness for C4 at a concrete store, query list and guest filter. -/
theorem multiQuerySearch_guest_fallback_witness :
    storeC4.textSearchEpisodes "Brian Chesky" 5 = [] ∧
    multiQuerySearch storeC4 ["growth"] (some "Brian Chesky") 20 =
      multiQuerySearch storeC4 ["growth"] none 20 :=
  ⟨rfl, multiQuerySearch_guest_fallback storeC4 ["growth"] "Brian Chesky" 20 rfl⟩

/-- The map update of one fusion-loop iteration, on the map alone. -/
def stepMap (m : List ChunkMatch) (c : ChunkMatch) : List ChunkMatch :=
  if keepChunk m c then mapSet m c else m

/-- Folding the fusion-loop map update over a list of returned chunks. -/
def fuseMap (m : List ChunkMatch) (l : List ChunkMatch) : List ChunkMatch :=
  l.foldl stepMap m

theorem fuseChunk_allChunks (st : FuseState) (c : ChunkMatch) :
    (fuseChunk st c).allChunks = stepMap st.allChunks c := by
  unfold fuseChunk stepMap
  split <;> rfl

theorem foldl_fuseChunk_allChunks :
    ∀ (l : List ChunkMatch) (st : FuseState),
      (l.foldl fuseChunk st).allChunks = fuseMap st.allChunks l := by
  intro l
  induction l with
  | nil => intro st; rfl
  | cons c t ih =>
    intro st
    show (t.foldl fuseChunk (fuseChunk st c)).allChunks = fuseMap st.allChunks (c :: t)
    rw [ih, fuseChunk_allChunks]
    rfl

theorem foldl_fuseChunk_flatten (store : ChatStore) (filt : Option (List String)) :
    ∀ (qs : List String) (init : FuseState),
      qs.foldl (fun s q => (queryResults store filt q).foldl fuseChunk s) init =
        ((qs.map (queryResults store filt)).flatten).foldl fuseChunk init := by
  intro qs
  induction qs with
  | nil => intro init; rfl
  | cons q t ih =>
    intro init
    simp only [List.foldl_cons, List.map_cons, List.flatten_cons, List.foldl_append]
    exact ih _

/-- `multiQuerySearch` in terms of the flattened per-query results. -/
theorem multiQuerySearch_as_fold (store : ChatStore) (queries : List String)
    (guestFilter : Option String) (limit : Nat) :
    multiQuerySearch store queries guestFilter limit =
      (let st := (allQueryResults store queries guestFilter).foldl fuseChunk ⟨[], []⟩
       ((List.insertionSort simDesc st.allChunks).take limit,
        if 0 < st.relevantEpisodeIds.length
        then store.getEpisodeDetails st.relevantEpisodeIds else [])) := by
  unfold multiQuerySearch allQueryResults
  simp only [foldl_fuseChunk_flatten]

theorem mapGet_some_id {m : List ChunkMatch} {i : String} {e : ChunkMatch}
    (h : mapGet m i = some e) : e.id = i := by
  have := List.find?_some h
  simpa using this

theorem mapGet_mem {m : List ChunkMatch} {i : String} {e : ChunkMatch}
    (h : mapGet m i = some e) : e ∈ m :=
  List.mem_of_find?_eq_some h

theorem mapGet_cons (f : ChunkMatch) (rest : List ChunkMatch) (i : String) :
    mapGet (f :: rest) i = if f.id = i then some f else mapGet rest i := by
  unfold mapGet
  by_cases h : f.id = i
  · rw [List.find?_cons_of_pos _ (by simpa using h), if_pos h]
  · rw [List.find?_cons_of_neg _ (by simpa using h), if_neg h]

theorem mapGet_eq_none_iff {m : List ChunkMatch} {i : String} :
    mapGet m i = none ↔ i ∉ m.map (fun e => e.id) := by
  induction m with
  | nil => simp [mapGet]
  | cons f rest ih =>
    rw [mapGet_cons]
    by_cases hid : f.id = i
    · simp [hid]
    · rw [if_neg hid, ih]
      have hne : ¬ i = f.id := fun hi => hid hi.symm
      simp [List.mem_cons, hne]

theorem mem_mapSet {m : List ChunkMatch} {c e : ChunkMatch}
    (h : e ∈ mapSet m c) : e = c ∨ e ∈ m := by
  induction m with
  | nil => simpa [mapSet] using h
  | cons f rest ih =>
    by_cases hid : f.id = c.id
    · simp only [mapSet, if_pos hid, List.mem_cons] at h
      rcases h with h | h
      · exact Or.inl h
      · exact Or.inr (List.mem_cons_of_mem _ h)
    · simp only [mapSet, if_neg hid, List.mem_cons] at h
      rcases h with h | h
      · exact Or.inr (by simp [h])
      · rcases ih h with h' | h'
        · exact Or.inl h'
        · exact Or.inr (List.mem_cons_of_mem _ h')

theorem mapGet_mapSet_self (m : List ChunkMatch) (c : ChunkMatch) :
    mapGet (mapSet m c) c.id = some c := by
  induction m with
  | nil => simp [mapSet, mapGet]
  | cons f rest ih =>
    by_cases hid : f.id = c.id
    · simp [mapSet, if_pos hid, mapGet_cons]
    · simp only [mapSet, if_neg hid]
      rw [mapGet_cons, if_neg hid]
      exact ih

theorem mapGet_mapSet_ne (m : List ChunkMatch) (c : ChunkMatch) {i : String}
    (h : i ≠ c.id) : mapGet (mapSet m c) i = mapGet m i := by
  induction m with
  | nil =>
    have h1 : ¬ (c.id = i) := fun hc => h hc.symm
    simp [mapSet, mapGet_cons, h1, mapGet]
  | cons f rest ih =>
    by_cases hid : f.id = c.id
    · simp only [mapSet, if_pos hid]
      have h1 : ¬ (c.id = i) := fun hc => h hc.symm
      have h2 : ¬ (f.id = i) := fun hf => h1 (hid ▸ hf)
      rw [mapGet_cons, if_neg h1, mapGet_cons, if_neg h2]
    · simp only [mapSet, if_neg hid]
      rw [mapGet_cons, mapGet_cons, ih]

theorem mapSet_ids (m : List ChunkMatch) (c : ChunkMatch) :
    (mapSet m c).map (fun e => e.id) =
      if (mapGet m c.id).isSome then m.map (fun e => e.id)
      else m.map (fun e => e.id) ++ [c.id] := by
  induction m with
  | nil => simp [mapSet, mapGet]
  | cons f rest ih =>
    by_cases hid : f.id = c.id
    · simp [mapSet, if_pos hid, mapGet_cons, hid]
    · simp only [mapSet, if_neg hid, List.map_cons]
      rw [mapGet_cons, if_neg hid]
      by_cases hs : (mapGet rest c.id).isSome
      · simp only [hs, if_true] at ih ⊢
        rw [ih]
      · simp only [hs, if_false] at ih ⊢
        rw [ih]
        simp

theorem keepChunk_false {m : List ChunkMatch} {c : ChunkMatch}
    (h : keepChunk m c = false) :
    ∃ e, mapGet m c.id = some e ∧ c.similarity ≤ e.similarity := by
  unfold keepChunk at h
  cases hg : mapGet m c.id with
  | none => rw [hg] at h; simp at h
  | some e =>
    rw [hg] at h
    refine ⟨e, rfl, ?_⟩
    have : ¬ (e.similarity < c.similarity) := by simpa using h
    exact le_of_not_lt this

theorem stepMap_get_self (m : List ChunkMatch) (c : ChunkMatch) :
    ∃ e, mapGet (stepMap m c) c.id = some e ∧ c.similarity ≤ e.similarity := by
  unfold stepMap
  cases hk : keepChunk m c with
  | true => exact ⟨c, by simp [mapGet_mapSet_self], le_refl _⟩
  | false =>
    obtain ⟨e, hg, hle⟩ := keepChunk_false hk
    exact ⟨e, by simpa using hg, hle⟩

theorem stepMap_get_mono {m : List ChunkMatch} {i : String} {e : ChunkMatch}
    (c : ChunkMatch) (h : mapGet m i = some e) :
    ∃ e', mapGet (stepMap m c) i = some e' ∧ e.similarity ≤ e'.similarity := by
  unfold stepMap
  cases hk : keepChunk m c with
  | false => exact ⟨e, by simpa using h, le_refl _⟩
  | true =>
    by_cases hi : i = c.id
    · subst hi
      refine ⟨c, by simp [mapGet_mapSet_self], ?_⟩
      unfold keepChunk at hk
      rw [h] at hk
      exact le_of_lt (by simpa using hk)
    · exact ⟨e, by simpa [mapGet_mapSet_ne m c hi] using h, le_refl _⟩

theorem stepMap_mem {m : List ChunkMatch} {c e : ChunkMatch}
    (h : e ∈ stepMap m c) : e = c ∨ e ∈ m := by
  unfold stepMap at h
  by_cases hk : keepChunk m c
  · rw [if_pos hk] at h
    exact mem_mapSet h
  · rw [if_neg hk] at h
    exact Or.inr h

theorem stepMap_ids_nodup {m : List ChunkMatch} (c : ChunkMatch)
    (h : (m.map (fun e => e.id)).Nodup) :
    ((stepMap m c).map (fun e => e.id)).Nodup := by
  unfold stepMap
  by_cases hk : keepChunk m c
  · rw [if_pos hk, mapSet_ids]
    by_cases hs : (mapGet m c.id).isSome
    · simpa [hs] using h
    · rw [if_neg hs]
      have hnone : mapGet m c.id = none := by
        cases hg : mapGet m c.id with
        | none => rfl
        | some e => rw [hg] at hs; simp at hs
      have hnot : c.id ∉ m.map (fun e => e.id) := mapGet_eq_none_iff.mp hnone
      simp [List.nodup_append, h, hnot]
  · rw [if_neg hk]
    exact h

theorem fuseMap_get_mono :
    ∀ (l : List ChunkMatch) (m : List ChunkMatch) {i : String} {e : ChunkMatch},
      mapGet m i = some e →
      ∃ e', mapGet (fuseMap m l) i = some e' ∧ e.similarity ≤ e'.similarity := by
  intro l
  induction l with
  | nil => intro m i e h; exact ⟨e, h, le_refl _⟩
  | cons c t ih =>
    intro m i e h
    obtain ⟨e1, h1, hle1⟩ := stepMap_get_mono c h
    obtain ⟨e2, h2, hle2⟩ := ih (stepMap m c) h1
    exact ⟨e2, h2, le_trans hle1 hle2⟩

theorem fuseMap_mem :
    ∀ (l : List ChunkMatch) (m : List ChunkMatch) {e : ChunkMatch},
      e ∈ fuseMap m l → e ∈ m ∨ e ∈ l := by
  intro l
  induction l with
  | nil => intro m e h; exact Or.inl h
  | cons c t ih =>
    intro m e h
    rcases ih (stepMap m c) h with h' | h'
    · rcases stepMap_mem h' with h'' | h''
      · exact Or.inr (by simp [h''])
      · exact Or.inl h''
    · exact Or.inr (List.mem_cons_of_mem _ h')

theorem fuseMap_ids_nodup :
    ∀ (l : List ChunkMatch) (m : List ChunkMatch),
      (m.map (fun e => e.id)).Nodup → ((fuseMap m l).map (fun e => e.id)).Nodup := by
  intro l
  induction l with
  | nil => intro m h; exact h
  | cons c t ih => intro m h; exact ih (stepMap m c) (stepMap_ids_nodup c h)

theorem mapGet_of_mem_nodup :
    ∀ {m : List ChunkMatch} {e : ChunkMatch},
      (m.map (fun x => x.id)).Nodup → e ∈ m → mapGet m e.id = some e := by
  intro m
  induction m with
  | nil => intro e _ h; simp at h
  | cons f rest ih =>
    intro e hnd hmem
    rw [List.mem_cons] at hmem
    rw [mapGet_cons]
    rcases hmem with h | h
    · subst h; simp
    · have hne : f.id ≠ e.id := by
        intro hf
        have : e.id ∈ rest.map (fun x => x.id) := List.mem_map_of_mem _ h
        rw [List.map_cons, List.nodup_cons] at hnd
        exact hnd.1 (hf ▸ this)
      rw [if_neg hne]
      exact ih (by rw [List.map_cons, List.nodup_cons] at hnd; exact hnd.2) h

theorem fuseMap_ub :
    ∀ (l : List ChunkMatch) (m : List ChunkMatch),
      (m.map (fun x => x.id)).Nodup →
      ∀ {e c : ChunkMatch}, e ∈ fuseMap m l → c ∈ l → c.id = e.id →
        c.similarity ≤ e.similarity := by
  intro l
  induction l with
  | nil => intro m _ e c _ hc; simp at hc
  | cons c0 t ih =>
    intro m hnd e c he hc hid
    rw [List.mem_cons] at hc
    rcases hc with hc | hc
    · subst hc
      obtain ⟨e0, h0, hle0⟩ := stepMap_get_self m c
      obtain ⟨e1, h1, hle1⟩ := fuseMap_get_mono t (stepMap m c) h0
      have hnd' := stepMap_ids_nodup c hnd
      have hnd'' := fuseMap_ids_nodup t (stepMap m c) hnd'
      have hge : mapGet (fuseMap (stepMap m c) t) e.id = some e :=
        mapGet_of_mem_nodup hnd'' he
      rw [← hid] at hge
      have : e1 = e := by
        rw [h1] at hge
        exact (Option.some.injEq _ _).mp hge
      subst this
      exact le_trans hle0 hle1
    · exact ih (stepMap m c0) (stepMap_ids_nodup c0 hnd) he hc hid

theorem fuseMap_cover :
    ∀ (l : List ChunkMatch) (m : List ChunkMatch) {c : ChunkMatch},
      c ∈ l → ∃ e, e ∈ fuseMap m l ∧ e.id = c.id := by
  intro l
  induction l with
  | nil => intro m c h; simp at h
  | cons c0 t ih =>
    intro m c hc
    rw [List.mem_cons] at hc
    rcases hc with hc | hc
    · subst hc
      obtain ⟨e0, h0, _⟩ := stepMap_get_self m c
      obtain ⟨e1, h1, _⟩ := fuseMap_get_mono t (stepMap m c) h0
      exact ⟨e1, mapGet_mem h1, mapGet_some_id h1⟩
    · exact ih (stepMap m c0) hc

/-- C1: the chunk list `multiQuerySearch` returns contains each chunk id
at most once, and every returned chunk is one of the per-query results
whose similarity is maximal among all per-query results with that chunk
id (max-pooling, never sum or average). -/
theorem multiQuerySearch_dedup_max (store : ChatStore) (queries : List String)
    (guestFilter : Option String) (limit : Nat) :
    (((multiQuerySearch store queries guestFilter limit).1.map (fun c => c.id)).Nodup) ∧
    ∀ c ∈ (multiQuerySearch store queries guestFilter limit).1,
      c ∈ allQueryResults store queries guestFilter ∧
      ∀ c' ∈ allQueryResults store queries guestFilter,
        c'.id = c.id → c'.similarity ≤ c.similarity := by
  rw [multiQuerySearch_as_fold]
  simp only
  rw [foldl_fuseChunk_allChunks]
  set results := allQueryResults store queries guestFilter with hres
  set M := fuseMap (⟨[], []⟩ : FuseState).allChunks results with hM
  have hMnil : M = fuseMap [] results := rfl
  have hnodupM : (M.map (fun e => e.id)).Nodup := by
    rw [hMnil]; exact fuseMap_ids_nodup results [] (by simp)
  have hperm : List.Perm (List.insertionSort simDesc M) M := List.perm_insertionSort simDesc M
  constructor
  · have h1 : (M.map (fun e => e.id)).Perm ((List.insertionSort simDesc M).map (fun e => e.id)) :=
      (hperm.map (fun e => e.id)).symm
    have h2 : ((List.insertionSort simDesc M).map (fun e => e.id)).Nodup := h1.nodup hnodupM
    have h3 : ((List.insertionSort simDesc M).take limit).map (fun e => e.id) =
        ((List.insertionSort simDesc M).map (fun e => e.id)).take limit :=
      List.map_take _ _ _
    rw [h3]
    exact (List.take_sublist _ _).nodup h2
  · intro c hc
    have hcM : c ∈ M := hperm.subset (List.mem_of_mem_take hc)
    have hcres : c ∈ results := by
      rcases fuseMap_mem results [] (hMnil ▸ hcM) with h | h
      · simp at h
      · exact h
    refine ⟨hcres, ?_⟩
    intro c' hc' hid
    exact fuseMap_ub results [] (by simp) (hMnil ▸ hcM) hc' hid

/-- Similarity 0.4 as a rational. -/
def simPt4 : ℚ := ⟨2, 5, by decide, by decide⟩

/-- Similarity 0.8 as a rational. -/
def simPt8 : ℚ := ⟨4, 5, by decide, by decide⟩

/-- Chunk X as returned by the first query (similarity 0.4). -/
def chunkX4 : ChunkMatch := ⟨"X", "e1", "some passage", 0, none, none, simPt4⟩

/-- Chunk X as returned by the second query (similarity 0.8). -/
def chunkX8 : ChunkMatch := ⟨"X", "e1", "some passage", 0, none, none, simPt8⟩

/-- A store on which two queries both return chunk X, with similarities
0.4 and 0.8 respectively. -/
def storeC1 : ChatStore :=
  { getEmbedding := fun q => some (if q = "q1" then [1] else [2])
    searchChunks := fun embedding _ _ => if embedding = [1] then [chunkX4] else [chunkX8]
    textSearchEpisodes := fun _ _ => []
    getEpisodeDetails := fun ids => ids.map (fun i => ⟨i, "T", "s", "G", none⟩) }

/-- Witness for C1: with both queries returning chunk X (0.4 and 0.8),
the fused output contains X exactly once, with similarity 0.8. -/
theorem multiQuerySearch_dedup_max_witness :
    (multiQuerySearch storeC1 ["q1", "q2"] none 20).1 = [chunkX8] ∧
    (chunkX8 ∈ allQueryResults storeC1 ["q1", "q2"] none ∧
      ∀ c' ∈ allQueryResults storeC1 ["q1", "q2"] none,
        c'.id = chunkX8.id → c'.similarity ≤ chunkX8.similarity) ∧
    (((multiQuerySearch storeC1 ["q1", "q2"] none 20).1.map (fun c => c.id)).Nodup) :=
  ⟨by decide,
   (multiQuerySearch_dedup_max storeC1 ["q1", "q2"] none 20).2 chunkX8 (by decide),
   (multiQuerySearch_dedup_max storeC1 ["q1", "q2"] none 20).1⟩

theorem mem_setAdd {s : List String} {x i : String} :
    i ∈ setAdd s x ↔ i ∈ s ∨ i = x := by
  unfold setAdd
  by_cases hx : x ∈ s
  · rw [if_pos hx]
    constructor
    · exact Or.inl
    · rintro (h | h)
      · exact h
      · exact h ▸ hx
  · rw [if_neg hx]
    simp

theorem setAdd_nodup {s : List String} (x : String) (h : s.Nodup) :
    (setAdd s x).Nodup := by
  unfold setAdd
  by_cases hx : x ∈ s
  · rwa [if_pos hx]
  · rw [if_neg hx]
    simp [List.nodup_append, h, hx]

theorem foldl_fuseChunk_ids_grow :
    ∀ (l : List ChunkMatch) (st : FuseState) {i : String},
      i ∈ st.relevantEpisodeIds → i ∈ (l.foldl fuseChunk st).relevantEpisodeIds := by
  intro l
  induction l with
  | nil => intro st i h; exact h
  | cons c t ih =>
    intro st i h
    apply ih
    unfold fuseChunk
    split
    · exact mem_setAdd.mpr (Or.inl h)
    · exact h

theorem foldl_fuseChunk_ids_sub :
    ∀ (l : List ChunkMatch) (st : FuseState) {i : String},
      i ∈ (l.foldl fuseChunk st).relevantEpisodeIds →
      i ∈ st.relevantEpisodeIds ∨ i ∈ l.map (fun c => c.episode_id) := by
  intro l
  induction l with
  | nil => intro st i h; exact Or.inl h
  | cons c t ih =>
    intro st i h
    rcases ih (fuseChunk st c) h with h' | h'
    · unfold fuseChunk at h'
      by_cases hk : keepChunk st.allChunks c
      · rw [if_pos hk] at h'
        rcases mem_setAdd.mp h' with h'' | h''
        · exact Or.inl h''
        · exact Or.inr (by simp [h''])
      · rw [if_neg hk] at h'
        exact Or.inl h'
    · exact Or.inr (List.mem_cons_of_mem _ h')

theorem foldl_fuseChunk_ids_nodup :
    ∀ (l : List ChunkMatch) (st : FuseState),
      st.relevantEpisodeIds.Nodup → (l.foldl fuseChunk st).relevantEpisodeIds.Nodup := by
  intro l
  induction l with
  | nil => intro st h; exact h
  | cons c t ih =>
    intro st h
    apply ih
    unfold fuseChunk
    split
    · exact setAdd_nodup _ h
    · exact h

/-- Invariant of the fusion loop: every chunk held in the dedup map has
its episode id recorded in the `relevantEpisodeIds` set. -/
def epInv (st : FuseState) : Prop :=
  ∀ e ∈ st.allChunks, e.episode_id ∈ st.relevantEpisodeIds

theorem fuseChunk_epInv {st : FuseState} (c : ChunkMatch) (h : epInv st) :
    epInv (fuseChunk st c) := by
  unfold fuseChunk
  by_cases hk : keepChunk st.allChunks c
  · rw [if_pos hk]
    intro e he
    rcases mem_mapSet he with h' | h'
    · exact mem_setAdd.mpr (Or.inr (h' ▸ rfl))
    · exact mem_setAdd.mpr (Or.inl (h e h'))
  · rwa [if_neg hk]

theorem foldl_fuseChunk_ep_complete :
    ∀ (l : List ChunkMatch) (st : FuseState) (R : List ChunkMatch),
      (∀ c ∈ l, c ∈ R) →
      (∀ e ∈ st.allChunks, e ∈ R) →
      (∀ c ∈ R, ∀ c' ∈ R, c.id = c'.id → c.episode_id = c'.episode_id) →
      epInv st →
      ∀ c ∈ l, c.episode_id ∈ (l.foldl fuseChunk st).relevantEpisodeIds := by
  intro l
  induction l with
  | nil => intro st R _ _ _ _ c hc; simp at hc
  | cons c0 t ih =>
    intro st R hR hmem hwf hinv c hc
    rw [List.mem_cons] at hc
    have hmem' : ∀ e ∈ (fuseChunk st c0).allChunks, e ∈ R := by
      intro e he
      rw [fuseChunk_allChunks] at he
      rcases stepMap_mem he with h' | h'
      · exact h' ▸ hR c0 (by simp)
      · exact hmem e h'
    rcases hc with hc | hc
    · subst hc
      rw [List.foldl_cons]
      apply foldl_fuseChunk_ids_grow
      unfold fuseChunk
      by_cases hk : keepChunk st.allChunks c
      · rw [if_pos hk]
        exact mem_setAdd.mpr (Or.inr rfl)
      · rw [if_neg hk]
        obtain ⟨e, hg, _⟩ := keepChunk_false (by simpa using hk)
        have heid : e.id = c.id := mapGet_some_id hg
        have hep : e.episode_id = c.episode_id :=
          hwf e (hmem e (mapGet_mem hg)) c (hR c (by simp)) heid
        exact hep ▸ hinv e (mapGet_mem hg)
    · exact ih (fuseChunk st c0) R (fun x hx => hR x (List.mem_cons_of_mem _ hx))
        hmem' hwf (fuseChunk_epInv c0 hinv) c hc

/-- C5 (amended): the episode list returned by `multiQuerySearch` is the
batch lookup over `relevantEpisodeIds`, and that id set is exactly the
distinct episode ids referenced by the *full* deduplicated result set —
before truncation to the result budget — provided chunk ids determine
episode ids (as they do in the store, where a chunk row belongs to one
episode).  Episodes whose chunks are all dropped by the truncation are
therefore still fetched and returned. -/
theorem multiQuerySearch_episode_set (store : ChatStore) (queries : List String)
    (guestFilter : Option String) (limit : Nat)
    (hwf : ∀ c ∈ allQueryResults store queries guestFilter,
           ∀ c' ∈ allQueryResults store queries guestFilter,
           c.id = c'.id → c.episode_id = c'.episode_id) :
    ((multiQuerySearch store queries guestFilter limit).2 =
      (if 0 < ((allQueryResults store queries guestFilter).foldl fuseChunk
                ⟨[], []⟩).relevantEpisodeIds.length
       then store.getEpisodeDetails
         ((allQueryResults store queries guestFilter).foldl fuseChunk
           ⟨[], []⟩).relevantEpisodeIds
       else [])) ∧
    ((allQueryResults store queries guestFilter).foldl fuseChunk
      ⟨[], []⟩).relevantEpisodeIds.Nodup ∧
    ∀ i, i ∈ ((allQueryResults store queries guestFilter).foldl fuseChunk
        ⟨[], []⟩).relevantEpisodeIds ↔
      i ∈ (allQueryResults store queries guestFilter).map (fun c => c.episode_id) := by
  refine ⟨?_, ?_, ?_⟩
  · rw [multiQuerySearch_as_fold]
  · exact foldl_fuseChunk_ids_nodup _ _ (by simp)
  · intro i
    constructor
    · intro h
      rcases foldl_fuseChunk_ids_sub _ _ h with h' | h'
      · simp at h'
      · exact h'
    · intro h
      rw [List.mem_map] at h
      obtain ⟨c, hc, hep⟩ := h
      exact hep ▸ foldl_fuseChunk_ep_complete _ ⟨[], []⟩ _
        (fun x hx => hx) (by simp) hwf (by intro e he; simp at he) c hc

/-- Similarity 0.9 as a rational. -/
def simPt9 : ℚ := ⟨9, 10, by decide, by decide⟩

/-- Similarity 0.1 as a rational. -/
def simPt1 : ℚ := ⟨1, 10, by decide, by decide⟩

/-- A chunk of episode A with high similarity. -/
def chunkA : ChunkMatch := ⟨"a1", "A", "passage a", 0, none, none, simPt9⟩

/-- A chunk of episode B with low similarity. -/
def chunkB : ChunkMatch := ⟨"b1", "B", "passage b", 0, none, none, simPt1⟩

/-- A store whose single broad search returns one chunk of episode A and
one lower-ranked chunk of episode B. -/
def storeC5 : ChatStore :=
  { getEmbedding := fun _ => some [1]
    searchChunks := fun _ _ _ => [chunkA, chunkB]
    textSearchEpisodes := fun _ _ => []
    getEpisodeDetails := fun ids => ids.map (fun i => ⟨i, "T", "s", "G", none⟩) }

/-- Counterexample to C5 as stated: with a result budget of 1, the only
chunk of episode B is dropped by the truncation, yet episode B still
appears in the returned episode list. -/
theorem multiQuerySearch_episode_set_counterexample :
    ((multiQuerySearch storeC5 ["q"] none 1).1.map (fun c => c.episode_id)) = ["A"] ∧
    (⟨"B", "T", "s", "G", none⟩ : EpisodeDetail) ∈ (multiQuerySearch storeC5 ["q"] none 1).2 := by
  decide

/-- Witness for the amended C5 at a concrete store and query. -/
theorem multiQuerySearch_episode_set_witness :
    (∀ c ∈ allQueryResults storeC5 ["q"] none,
      ∀ c' ∈ allQueryResults storeC5 ["q"] none,
      c.id = c'.id → c.episode_id = c'.episode_id) ∧
    ∀ i, i ∈ ((allQueryResults storeC5 ["q"] none).foldl fuseChunk
        ⟨[], []⟩).relevantEpisodeIds ↔
      i ∈ (allQueryResults storeC5 ["q"] none).map (fun c => c.episode_id) :=
  ⟨by decide, (multiQuerySearch_episode_set storeC5 ["q"] none 1 (by decide)).2.2⟩

/-- A chunk with its similarity field zeroed out: two per-query results
describe the same stored chunk when they agree after erasing similarity. -/
def eraseSim (c : ChunkMatch) : ChunkMatch :=
  { c with similarity := 0 }

theorem eq_of_eraseSim_eq {c c' : ChunkMatch} (h1 : eraseSim c = eraseSim c')
    (h2 : c.similarity = c'.similarity) : c = c' := by
  cases c
  cases c'
  simp_all [eraseSim]

theorem fuseMap_mem_congr_sub {l₁ l₂ : List ChunkMatch}
    (hperm : List.Perm l₂ l₁)
    (hdoc : ∀ c ∈ l₁, ∀ c' ∈ l₁, c.id = c'.id → eraseSim c = eraseSim c') :
    ∀ e ∈ fuseMap [] l₁, e ∈ fuseMap [] l₂ := by
  intro e he
  have hel1 : e ∈ l₁ := by
    rcases fuseMap_mem l₁ [] he with h | h
    · simp at h
    · exact h
  have hub1 : ∀ c ∈ l₁, c.id = e.id → c.similarity ≤ e.similarity :=
    fun c hc hid => fuseMap_ub l₁ [] (by simp) he hc hid
  have hel2 : e ∈ l₂ := hperm.mem_iff.mpr hel1
  obtain ⟨e₂, he₂, hid₂⟩ := fuseMap_cover l₂ [] hel2
  have he₂l2 : e₂ ∈ l₂ := by
    rcases fuseMap_mem l₂ [] he₂ with h | h
    · simp at h
    · exact h
  have he₂l1 : e₂ ∈ l₁ := hperm.mem_iff.mp he₂l2
  have h1 : e.similarity ≤ e₂.similarity :=
    fuseMap_ub l₂ [] (by simp) he₂ hel2 hid₂.symm
  have h2 : e₂.similarity ≤ e.similarity := hub1 e₂ he₂l1 hid₂
  have hsim : e₂.similarity = e.similarity := le_antisymm h2 h1
  have hdoceq : eraseSim e₂ = eraseSim e := hdoc e₂ he₂l1 e hel1 hid₂
  have : e₂ = e := eq_of_eraseSim_eq hdoceq hsim
  exact this ▸ he₂

theorem fuseMap_perm_of_perm {l₁ l₂ : List ChunkMatch}
    (hperm : List.Perm l₂ l₁)
    (hdoc : ∀ c ∈ l₁, ∀ c' ∈ l₁, c.id = c'.id → eraseSim c = eraseSim c') :
    List.Perm (fuseMap [] l₁) (fuseMap [] l₂) := by
  have hdoc₂ : ∀ c ∈ l₂, ∀ c' ∈ l₂, c.id = c'.id → eraseSim c = eraseSim c' :=
    fun c hc c' hc' => hdoc c (hperm.mem_iff.mp hc) c' (hperm.mem_iff.mp hc')
  have hn₁ : (fuseMap [] l₁).Nodup :=
    List.Nodup.of_map _ (fuseMap_ids_nodup l₁ [] (by simp))
  have hn₂ : (fuseMap [] l₂).Nodup :=
    List.Nodup.of_map _ (fuseMap_ids_nodup l₂ [] (by simp))
  apply List.perm_of_nodup_nodup_toFinset_eq hn₁ hn₂
  apply Finset.ext
  intro e
  rw [List.mem_toFinset, List.mem_toFinset]
  constructor
  · exact fun h => fuseMap_mem_congr_sub hperm hdoc e h
  · exact fun h => fuseMap_mem_congr_sub hperm.symm hdoc₂ e h

theorem sorted_perm_distinct_eq :
    ∀ {l₁ l₂ : List ChunkMatch}, List.Perm l₁ l₂ →
      List.Sorted simDesc l₁ → List.Sorted simDesc l₂ →
      l₁.Pairwise (fun a b => a.similarity ≠ b.similarity) → l₁ = l₂ := by
  intro l₁
  induction l₁ with
  | nil =>
    intro l₂ hp _ _ _
    exact (List.perm_nil.mp hp.symm).symm
  | cons a t ih =>
    intro l₂ hp hs₁ hs₂ hd
    cases l₂ with
    | nil => exact absurd (List.perm_nil.mp hp) (by simp)
    | cons b t₂ =>
      have hab : a = b := by
        have hbmem : b ∈ a :: t := hp.symm.subset (by simp)
        have hamem : a ∈ b :: t₂ := hp.subset (by simp)
        rcases List.mem_cons.mp hbmem with h | h
        · exact h.symm
        · have h1 : b.similarity ≤ a.similarity := List.rel_of_sorted_cons hs₁ b h
          rcases List.mem_cons.mp hamem with h' | h'
          · exact h'
          · have h2 : a.similarity ≤ b.similarity := List.rel_of_sorted_cons hs₂ a h'
            have hne : a.similarity ≠ b.similarity := (List.pairwise_cons.mp hd).1 b h
            exact absurd (le_antisymm h2 h1) hne
      subst hab
      have ht : List.Perm t t₂ := hp.cons_inv
      rw [ih ht hs₁.of_cons hs₂.of_cons (List.pairwise_cons.mp hd).2]

/-- C6 (amended): two runs of `multiQuerySearch` that consume the same
multiset of per-query search results — any permutation of the queries
and of result arrival — produce the same final deduplicated, ranked,
truncated chunk list, provided equal chunk ids denote the same stored
chunk and no two distinct chunks share a similarity score.  (With tied
similarities the stable sort exposes the processing order; see the
counterexample.) -/
theorem multiQuerySearch_order_independent
    (store₁ store₂ : ChatStore) (qs₁ qs₂ : List String)
    (gf₁ gf₂ : Option String) (limit : Nat)
    (hperm : List.Perm (allQueryResults store₂ qs₂ gf₂) (allQueryResults store₁ qs₁ gf₁))
    (hdoc : ∀ c ∈ allQueryResults store₁ qs₁ gf₁,
            ∀ c' ∈ allQueryResults store₁ qs₁ gf₁,
            c.id = c'.id → eraseSim c = eraseSim c')
    (hdist : ∀ c ∈ allQueryResults store₁ qs₁ gf₁,
             ∀ c' ∈ allQueryResults store₁ qs₁ gf₁,
             c.id ≠ c'.id → c.similarity ≠ c'.similarity) :
    (multiQuerySearch store₁ qs₁ gf₁ limit).1 =
      (multiQuerySearch store₂ qs₂ gf₂ limit).1 := by
  rw [multiQuerySearch_as_fold, multiQuerySearch_as_fold]
  simp only
  rw [foldl_fuseChunk_allChunks, foldl_fuseChunk_allChunks]
  set l₁ := allQueryResults store₁ qs₁ gf₁ with hl₁
  set l₂ := allQueryResults store₂ qs₂ gf₂ with hl₂
  have hM : ∀ l : List ChunkMatch,
      fuseMap (⟨[], []⟩ : FuseState).allChunks l = fuseMap [] l := fun _ => rfl
  rw [hM l₁, hM l₂]
  have hMperm : List.Perm (fuseMap [] l₁) (fuseMap [] l₂) :=
    fuseMap_perm_of_perm hperm hdoc
  have hids₁ : ((fuseMap [] l₁).map (fun e => e.id)).Nodup :=
    fuseMap_ids_nodup l₁ [] (by simp)
  have hpair : (fuseMap [] l₁).Pairwise (fun a b => a.similarity ≠ b.similarity) := by
    have hnd : (fuseMap [] l₁).Nodup := List.Nodup.of_map _ hids₁
    refine List.Pairwise.imp_of_mem ?_ hnd
    intro a b ha hb hne
    have hal : a ∈ l₁ := by
      rcases fuseMap_mem l₁ [] ha with h | h
      · simp at h
      · exact h
    have hbl : b ∈ l₁ := by
      rcases fuseMap_mem l₁ [] hb with h | h
      · simp at h
      · exact h
    have hidne : a.id ≠ b.id := by
      intro hid
      exact hne (List.inj_on_of_nodup_map hids₁ ha hb hid)
    exact hdist a hal b hbl hidne
  have hs₁ : List.Sorted simDesc (List.insertionSort simDesc (fuseMap [] l₁)) :=
    List.sorted_insertionSort simDesc _
  have hs₂ : List.Sorted simDesc (List.insertionSort simDesc (fuseMap [] l₂)) :=
    List.sorted_insertionSort simDesc _
  have hSperm : List.Perm (List.insertionSort simDesc (fuseMap [] l₁))
      (List.insertionSort simDesc (fuseMap [] l₂)) :=
    ((List.perm_insertionSort simDesc _).trans hMperm).trans
      (List.perm_insertionSort simDesc _).symm
  have hpairS : (List.insertionSort simDesc (fuseMap [] l₁)).Pairwise
      (fun a b => a.similarity ≠ b.similarity) :=
    ((List.perm_insertionSort simDesc _).pairwise_iff (fun h => h.symm)).mpr hpair
  rw [sorted_perm_distinct_eq hSperm hs₁ hs₂ hpairS]

/-- Similarity 0.5 as a rational. -/
def simHalf : ℚ := ⟨1, 2, by decide, by decide⟩

/-- A chunk of episode E1 returned with similarity 0.5. -/
def chunkTieA : ChunkMatch := ⟨"ta", "E1", "pa", 0, none, none, simHalf⟩

/-- A chunk of episode E2 also returned with similarity 0.5. -/
def chunkTieB : ChunkMatch := ⟨"tb", "E2", "pb", 0, none, none, simHalf⟩

/-- A store on which the two queries return two distinct chunks with
*tied* similarities. -/
def storeC6 : ChatStore :=
  { getEmbedding := fun q => some (if q = "qa" then [1] else [2])
    searchChunks := fun embedding _ _ =>
      if embedding = [1] then [chunkTieA] else [chunkTieB]
    textSearchEpisodes := fun _ _ => []
    getEpisodeDetails := fun ids => ids.map (fun i => ⟨i, "T", "s", "G", none⟩) }

/-- Counterexample to C6 as stated: the two runs consume the same
per-query result lists (a permutation of each other), yet the final
ranked chunk lists differ, because the stable sort keeps tied chunks in
processing order. -/
theorem multiQuerySearch_order_counterexample :
    List.Perm (allQueryResults storeC6 ["qb", "qa"] none)
      (allQueryResults storeC6 ["qa", "qb"] none) ∧
    (multiQuerySearch storeC6 ["qa", "qb"] none 20).1 ≠
      (multiQuerySearch storeC6 ["qb", "qa"] none 20).1 := by
  decide

/-- Chunk with a distinct similarity for the C6 witness. -/
def chunkD1 : ChunkMatch := ⟨"d1", "E1", "p1", 0, none, none, simPt9⟩

/-- Second chunk with a distinct similarity for the C6 witness. -/
def chunkD2 : ChunkMatch := ⟨"d2", "E2", "p2", 0, none, none, simPt1⟩

/-- A store on which the two queries return two distinct chunks with
distinct similarities. -/
def storeC6w : ChatStore :=
  { getEmbedding := fun q => some (if q = "qa" then [1] else [2])
    searchChunks := fun embedding _ _ =>
      if embedding = [1] then [chunkD1] else [chunkD2]
    textSearchEpisodes := fun _ _ => []
    getEpisodeDetails := fun ids => ids.map (fun i => ⟨i, "T", "s", "G", none⟩) }

/-- Witness for the amended C6 at a concrete store with distinct
similarities and swapped query order. -/
theorem multiQuerySearch_order_independent_witness :
    (List.Perm (allQueryResults storeC6w ["qb", "qa"] none)
        (allQueryResults storeC6w ["qa", "qb"] none) ∧
      (∀ c ∈ allQueryResults storeC6w ["qa", "qb"] none,
        ∀ c' ∈ allQueryResults storeC6w ["qa", "qb"] none,
        c.id = c'.id → eraseSim c = eraseSim c') ∧
      (∀ c ∈ allQueryResults storeC6w ["qa", "qb"] none,
        ∀ c' ∈ allQueryResults storeC6w ["qa", "qb"] none,
        c.id ≠ c'.id → c.similarity ≠ c'.similarity)) ∧
    (multiQuerySearch storeC6w ["qa", "qb"] none 20).1 =
      (multiQuerySearch storeC6w ["qb", "qa"] none 20).1 :=
  ⟨⟨by decide, by decide, by decide⟩,
   multiQuerySearch_order_independent storeC6w storeC6w ["qa", "qb"] ["qb", "qa"]
     none none 20 (by decide) (by decide) (by decide)⟩

/-- The whitespace class of the chunker, modelling the `\s` of the
timestamp regex and JS `trim` on the ASCII whitespace occurring in
transcripts. -/
def wsChar (c : Char) : Bool :=
  c == ' ' || c == '\t' || c == '\n' || c == '\r' || c == Char.ofNat 11 || c == Char.ofNat 12

/-- JS `String.prototype.trim` on character lists: drop the maximal
whitespace prefix and suffix. -/
def trimL (l : List Char) : List Char :=
  ((l.dropWhile wsChar).reverse.dropWhile wsChar).reverse

/-- Worker for `content.split(/\n\n+/)`: `acc` holds the current piece
reversed, `pending` counts newlines seen but not yet classified.  A run
of two or more newlines is a separator (consumed entirely, greedy `+`);
a single newline stays inside the piece. -/
def splitParasGo : List Char → List Char → Nat → List (List Char)
  | acc, [], pending =>
    if 2 ≤ pending then [acc.reverse, []]
    else [(List.replicate pending '\n' ++ acc).reverse]
  | acc, '\n' :: rest, pending => splitParasGo acc rest (pending + 1)
  | acc, c :: rest, pending =>
    if 2 ≤ pending then acc.reverse :: splitParasGo [c] rest 0
    else splitParasGo (c :: (List.replicate pending '\n' ++ acc)) rest 0

/-- `content.split(/\n\n+/)`. -/
def splitParas (content : List Char) : List (List Char) :=
  splitParasGo [] content 0

/-- The tail `\s*([A-Za-z\s]+)?:` of the timestamp regex, with its
backtracking collapsed: since the speaker class `[A-Za-z\s]` contains
`\s`, the composite matches exactly when the character following the
maximal run of letters/whitespace is `:`; the captured group is that run
minus its whitespace prefix (absent when empty). -/
def speakerTail (cs : List Char) : Option (Option (List Char)) :=
  let run := cs.takeWhile (fun c => c.isAlpha || wsChar c)
  match cs.drop run.length with
  | ':' :: _ =>
    let g := run.dropWhile wsChar
    some (if g.isEmpty then none else some g)
  | _ => none

/-- The optional closing bracket `[\]\)]?` before the speaker tail, with
greedy matching and backtracking. -/
def afterStamp (cs : List Char) : Option (Option (List Char)) :=
  match cs with
  | c :: rest =>
    if c = ']' ∨ c = ')' then
      match speakerTail rest with
      | some g => some g
      | none => speakerTail cs
    else speakerTail cs
  | [] => speakerTail []

/-- The optional seconds `(?::\d{2})?` (greedy, with backtracking into
the rest of the pattern), followed by `afterStamp`. -/
def withSeconds (ts : List Char) (rest : List Char) :
    Option (List Char × Option (List Char)) :=
  match rest with
  | ':' :: c :: d :: rest2 =>
    if c.isDigit && d.isDigit then
      match afterStamp rest2 with
      | some g => some (ts ++ [':', c, d], g)
      | none =>
        match afterStamp rest with
        | some g => some (ts, g)
        | none => none
    else
      match afterStamp rest with
      | some g => some (ts, g)
      | none => none
  | _ =>
    match afterStamp rest with
    | some g => some (ts, g)
    | none => none

/-- The clock core `\d{1,2}:\d{2}` of the timestamp regex, anchored at
the head of `cs` (greedy hour width; the two widths cannot both continue,
so no cross-width backtracking is needed). -/
def stampCore (cs : List Char) : Option (List Char × Option (List Char)) :=
  match cs with
  | a :: b :: rest =>
    if a.isDigit && b.isDigit then
      match rest with
      | ':' :: c :: d :: rest2 =>
        if c.isDigit && d.isDigit then withSeconds [a, b, ':', c, d] rest2 else none
      | _ => none
    else if a.isDigit && b = ':' then
      match rest with
      | c :: d :: rest2 =>
        if c.isDigit && d.isDigit then withSeconds [a, ':', c, d] rest2 else none
      | _ => none
    else none
  | _ => none

/-- The optional opening bracket `[\[\(]?` (greedy, with backtracking)
followed by the clock core, anchored at the head of `cs`. -/
def stampAt (cs : List Char) : Option (List Char × Option (List Char)) :=
  match cs with
  | _ :: rest =>
    if cs.head? = some '[' ∨ cs.head? = some '(' then
      match stampCore rest with
      | some r => some r
      | none => stampCore cs
    else stampCore cs
  | [] => none

/-- `paragraph.match(/[\[\(]?(\d{1,2}:\d{2}(?::\d{2})?)[\]\)]?\s*([A-Za-z\s]+)?:/)`:
search for the first position at which the timestamp pattern matches,
returning the timestamp capture and the optional speaker capture. -/
def findStamp : List Char → Option (List Char × Option (List Char))
  | [] => none
  | c :: rest =>
    match stampAt (c :: rest) with
    | some r => some r
    | none => findStamp rest

/-- `TARGET_CHUNK_SIZE = 3200` (about 800 tokens times 4 characters). -/
def TARGET_CHUNK_SIZE : Nat := 3200

/-- `OVERLAP = 400` (about 100 tokens of overlap). -/
def OVERLAP : Nat := 400

/-- A chunk record accumulated by `chunkTranscript` before insertion. -/
structure RawChunk where
  content : List Char
  chunkIndex : Nat
  startTimestamp : Option (List Char)
  speaker : Option (List Char)
deriving DecidableEq

/-- The loop state of `chunkTranscript`. -/
structure ChunkState where
  currentChunk : List Char
  chunks : List RawChunk
  chunkIndex : Nat
  currentTimestamp : Option (List Char)
  currentSpeaker : Option (List Char)
deriving DecidableEq

/-- The `"\n\n"` joiner used when appending a paragraph to the buffer. -/
def sepNN : List Char := ['\n', '\n']

/-- One iteration of the `for (const paragraph of paragraphs)` loop of
`chunkTranscript`: detect a timestamp/speaker marker (updating the
sticky state *before* the overflow check), then either flush the buffer
as a chunk and reseed it with the trailing `OVERLAP` characters plus the
paragraph, or append the paragraph. -/
def chunkStep (st : ChunkState) (paragraph : List Char) : ChunkState :=
  let currentTimestamp :=
    match findStamp paragraph with
    | some (t, _) => some t
    | none => st.currentTimestamp
  let currentSpeaker :=
    match findStamp paragraph with
    | some (_, some s) => some (trimL s)
    | _ => st.currentSpeaker
  if TARGET_CHUNK_SIZE < st.currentChunk.length + paragraph.length then
    let flushed := trimL st.currentChunk
    let chunks' :=
      if flushed ≠ [] then
        st.chunks ++ [⟨flushed, st.chunkIndex, currentTimestamp, currentSpeaker⟩]
      else st.chunks
    let chunkIndex' := if flushed ≠ [] then st.chunkIndex + 1 else st.chunkIndex
    let overlapText := st.currentChunk.drop (st.currentChunk.length - OVERLAP)
    ⟨overlapText ++ sepNN ++ paragraph, chunks', chunkIndex', currentTimestamp,
     currentSpeaker⟩
  else
    ⟨(if st.currentChunk.isEmpty then paragraph
      else st.currentChunk ++ sepNN ++ paragraph),
     st.chunks, st.chunkIndex, currentTimestamp, currentSpeaker⟩

/-- `chunkTranscript(episodeId, content)` (the chunk list it builds; the
surrounding delete/insert persistence is the store's concern): split into
paragraphs, fold the loop body, and flush any remaining non-empty buffer. -/
def chunkTranscript (content : List Char) : List RawChunk :=
  let st := (splitParas content).foldl chunkStep ⟨[], [], 0, none, none⟩
  if trimL st.currentChunk ≠ [] then
    st.chunks ++
      [⟨trimL st.currentChunk, st.chunkIndex, st.currentTimestamp, st.currentSpeaker⟩]
  else st.chunks

theorem tailTrim_ge (l : List Char) :
    ((l.dropWhile wsChar).reverse.dropWhile wsChar).length ≤
      (l.reverse.dropWhile wsChar).length := by
  have hsplit : l.takeWhile wsChar ++ l.dropWhile wsChar = l :=
    List.takeWhile_append_dropWhile wsChar l
  have hws : ∀ x ∈ l.takeWhile wsChar, wsChar x = true :=
    fun x hx => List.mem_takeWhile_imp hx
  conv_rhs => rw [← hsplit]
  rw [List.reverse_append, List.dropWhile_append]
  by_cases hemp : (((l.dropWhile wsChar).reverse.dropWhile wsChar)).isEmpty
  · rw [if_pos hemp]
    have : ((l.dropWhile wsChar).reverse.dropWhile wsChar).length = 0 := by
      rw [List.isEmpty_iff] at hemp
      simp [hemp]
    simp [this]
  · rw [if_neg hemp]
    simp

theorem trimL_append_ge (a b : List Char) :
    (trimL a).length + (trimL b).length ≤ (trimL (a ++ b)).length := by
  unfold trimL
  simp only [List.length_reverse]
  rw [List.dropWhile_append]
  by_cases hA : ((a.dropWhile wsChar)).isEmpty
  · rw [if_pos hA]
    have h0 : (a.dropWhile wsChar) = [] := List.isEmpty_iff.mp hA
    simp [h0]
  · rw [if_neg hA]
    rw [List.reverse_append, List.dropWhile_append]
    by_cases hB : ((b.reverse.dropWhile wsChar)).isEmpty
    · rw [if_pos hB]
      have hb0 : (b.reverse.dropWhile wsChar).length = 0 := by
        rw [List.isEmpty_iff] at hB
        simp [hB]
      have hbz : ((b.dropWhile wsChar).reverse.dropWhile wsChar).length = 0 :=
        Nat.le_zero.mp (hb0 ▸ tailTrim_ge b)
      simp [hbz]
    · rw [if_neg hB]
      rw [List.length_append, List.length_reverse]
      have h1 : ((a.dropWhile wsChar).reverse.dropWhile wsChar).length ≤
          (a.dropWhile wsChar).length := by
        have := (List.dropWhile_sublist (l := (a.dropWhile wsChar).reverse)
          wsChar).length_le
        simpa using this
      have h2 : ((b.dropWhile wsChar).reverse.dropWhile wsChar).length ≤
          (b.reverse.dropWhile wsChar).length := tailTrim_ge b
      omega

theorem trimL_append_left_ge (a b : List Char) :
    (trimL b).length ≤ (trimL (a ++ b)).length :=
  le_trans (Nat.le_add_left _ _) (trimL_append_ge a b)

/-- Total content length of a chunk list. -/
def chunksLen (cs : List RawChunk) : Nat :=
  (cs.map (fun c => c.content.length)).sum

theorem chunksLen_append (xs ys : List RawChunk) :
    chunksLen (xs ++ ys) = chunksLen xs + chunksLen ys := by
  unfold chunksLen
  rw [List.map_append, List.sum_append]

theorem chunkStep_coverage (st : ChunkState) (p : List Char) :
    chunksLen st.chunks + (trimL st.currentChunk).length + (trimL p).length ≤
      chunksLen (chunkStep st p).chunks +
        (trimL (chunkStep st p).currentChunk).length := by
  unfold chunkStep
  by_cases hov : TARGET_CHUNK_SIZE < st.currentChunk.length + p.length
  · simp only [if_pos hov]
    by_cases hne : trimL st.currentChunk ≠ []
    · simp only [if_pos hne, chunksLen_append]
      have hnew : (trimL p).length ≤
          (trimL ((st.currentChunk.drop (st.currentChunk.length - OVERLAP) ++ sepNN)
            ++ p)).length := trimL_append_left_ge _ _
      simp only [chunksLen, List.map_cons, List.map_nil, List.sum_cons, List.sum_nil,
        List.append_assoc] at *
      omega
    · simp only [if_neg hne]
      have h0 : (trimL st.currentChunk).length = 0 := by
        rw [not_not] at hne
        simp [hne]
      have hnew : (trimL p).length ≤
          (trimL ((st.currentChunk.drop (st.currentChunk.length - OVERLAP) ++ sepNN)
            ++ p)).length := trimL_append_left_ge _ _
      simp only [List.append_assoc] at *
      omega
  · simp only [if_neg hov]
    by_cases hemp : st.currentChunk.isEmpty
    · simp only [if_pos hemp]
      have h0 : (trimL st.currentChunk).length = 0 := by
        rw [List.isEmpty_iff] at hemp
        simp [hemp, trimL]
      omega
    · simp only [if_neg hemp]
      have h1 : (trimL st.currentChunk).length + (trimL (sepNN ++ p)).length ≤
          (trimL (st.currentChunk ++ (sepNN ++ p))).length := trimL_append_ge _ _
      have h2 : (trimL p).length ≤ (trimL (sepNN ++ p)).length :=
        trimL_append_left_ge _ _
      simp only [List.append_assoc] at *
      omega

theorem foldl_chunkStep_coverage :
    ∀ (ps : List (List Char)) (st : ChunkState),
      chunksLen st.chunks + (trimL st.currentChunk).length +
          (ps.map (fun p => (trimL p).length)).sum ≤
        chunksLen ((ps.foldl chunkStep st).chunks) +
          (trimL ((ps.foldl chunkStep st).currentChunk)).length := by
  intro ps
  induction ps with
  | nil => intro st; simp
  | cons p t ih =>
    intro st
    rw [List.foldl_cons, List.map_cons, List.sum_cons]
    have h1 := chunkStep_coverage st p
    have h2 := ih (chunkStep st p)
    omega

/-- C8 (amended): the total content length of the chunks produced by
`chunkTranscript` is at least the total length of the *trimmed split
paragraphs* of the transcript.  (The claimed bound against the raw
transcript length fails: the `\n\n+` separators consumed by the split
and the whitespace removed by `trim` at chunk boundaries are not
preserved; see the counterexample.) -/
theorem chunkTranscript_coverage (content : List Char) :
    ((splitParas content).map (fun p => (trimL p).length)).sum ≤
      chunksLen (chunkTranscript content) := by
  unfold chunkTranscript
  dsimp only
  have h := foldl_chunkStep_coverage (splitParas content) ⟨[], [], 0, none, none⟩
  have hz1 : chunksLen (⟨[], [], 0, none, none⟩ : ChunkState).chunks = 0 := rfl
  have hz2 : (trimL (⟨[], [], 0, none, none⟩ : ChunkState).currentChunk).length = 0 := rfl
  rw [hz1, hz2] at h
  set st := (splitParas content).foldl chunkStep ⟨[], [], 0, none, none⟩ with hst
  by_cases hne : trimL st.currentChunk ≠ []
  · rw [if_pos hne, chunksLen_append]
    have hone : chunksLen [⟨trimL st.currentChunk, st.chunkIndex, st.currentTimestamp,
        st.currentSpeaker⟩] = (trimL st.currentChunk).length := by
      simp [chunksLen]
    rw [hone]
    omega
  · rw [if_neg hne]
    rw [not_not] at hne
    have hzz : (trimL st.currentChunk).length = 0 := by rw [hne]; rfl
    omega

/-- Counterexample to C8 as stated: on the transcript `"a\n\n\nb"`
(length 5) the chunker produces the single chunk `"a\n\nb"` (length 4):
the three-newline separator is collapsed, so the summed chunk length is
smaller than the transcript length. -/
theorem chunkTranscript_coverage_counterexample :
    (((chunkTranscript ("a\n\n\nb".data)).map (fun c => c.content.length)).sum) <
      ("a\n\n\nb".data).length := by
  decide

/-- C10: when a paragraph carrying a timestamp marker triggers a flush,
the flushed chunk is tagged with the timestamp (and, when captured, the
trimmed speaker) extracted from that *triggering* paragraph — marker
detection updates the sticky state before the overflow check runs — even
though the flushed content `trimL st.currentChunk` does not contain the
triggering paragraph's text. -/
theorem chunkStep_flush_marker (st : ChunkState) (p t : List Char)
    (g : Option (List Char))
    (hmatch : findStamp p = some (t, g))
    (hover : TARGET_CHUNK_SIZE < st.currentChunk.length + p.length)
    (hne : trimL st.currentChunk ≠ []) :
    (chunkStep st p).chunks =
      st.chunks ++ [⟨trimL st.currentChunk, st.chunkIndex, some t,
        g.elim st.currentSpeaker (fun s => some (trimL s))⟩] := by
  unfold chunkStep
  simp only [hmatch]
  cases g with
  | some s => simp only [if_pos hover, if_pos hne, Option.elim]
  | none => simp only [if_pos hover, if_pos hne, Option.elim]

/-- The triggering paragraph of the C10 witness: a timestamp/speaker
marker followed by enough text to overflow the buffer. -/
def chunkWitnessPara : List Char := "[1:23] Bob:".data ++ List.replicate 3195 'y'

/-- The pre-flush loop state of the C10 witness. -/
def chunkWitnessState : ChunkState := ⟨"seed".data, [], 0, none, none⟩

/-- Witness for C10 at a concrete state and paragraph. -/
theorem chunkStep_flush_marker_witness :
    (findStamp chunkWitnessPara = some ("1:23".data, some "Bob".data) ∧
      TARGET_CHUNK_SIZE < chunkWitnessState.currentChunk.length + chunkWitnessPara.length ∧
      trimL chunkWitnessState.currentChunk ≠ []) ∧
    (chunkStep chunkWitnessState chunkWitnessPara).chunks =
      [⟨"seed".data, 0, some "1:23".data, some "Bob".data⟩] := by
  have h4 : ("seed".data).length = 4 := by decide
  have h11 : ("[1:23] Bob:".data).length = 11 := by decide
  have hlen : chunkWitnessState.currentChunk.length + chunkWitnessPara.length = 3210 := by
    unfold chunkWitnessState chunkWitnessPara
    rw [List.length_append, List.length_replicate, h4, h11]
  have hover : TARGET_CHUNK_SIZE <
      chunkWitnessState.currentChunk.length + chunkWitnessPara.length := by
    rw [hlen]
    decide
  have hmatch : findStamp chunkWitnessPara = some ("1:23".data, some "Bob".data) := by
    decide
  have hne : trimL chunkWitnessState.currentChunk ≠ [] := by decide
  refine ⟨⟨hmatch, hover, hne⟩, ?_⟩
  rw [chunkStep_flush_marker chunkWitnessState chunkWitnessPara "1:23".data
    (some "Bob".data) hmatch hover hne]
  decide

/-- An episode row as selected by the search route
(`id, title, guest_name, slug, publish_date, summary`). -/
structure EpisodeRow where
  id : String
  title : String
  guest_name : String
  slug : String
  publish_date : String
  summary : Option String
deriving DecidableEq

/-- A search result: an episode row spread together with its score
(`{...ep, score}`). -/
structure ScoredEpisode where
  row : EpisodeRow
  score : ℚ
deriving DecidableEq

/-- The validated `type` field of a search request. -/
inductive SearchType
  | semantic
  | text
  | hybrid
deriving DecidableEq

/-- The external capabilities the search route consumes.
`matchChunksRpc` is the `match_chunks` RPC on the embedded query
(threshold 0.2 applied store-side), yielding `(episode_id, similarity)`
pairs; `episodesIn` is the `.in("id", ids)` batch select; and
`episodesTextSearch` the ILIKE text search over title/guest/transcript
with its limit. -/
structure SearchStore where
  matchChunksRpc : String → Nat → List (String × ℚ)
  episodesIn : List String → List EpisodeRow
  episodesTextSearch : String → Nat → List EpisodeRow

/-- JS `Map.set` on the `episodeScores` map. -/
def scoreSet : List (String × ℚ) → String → ℚ → List (String × ℚ)
  | [], k, v => [(k, v)]
  | e :: rest, k, v => if e.1 = k then (k, v) :: rest else e :: scoreSet rest k v

/-- JS `Map.get` on the `episodeScores` map. -/
def scoreGet (m : List (String × ℚ)) (k : String) : Option ℚ :=
  (m.find? (fun e => e.1 = k)).map (fun e => e.2)

/-- The per-episode best-score accumulation of the semantic branch:
`episodeScores.set(ep, Math.max(episodeScores.get(ep) || 0, sim))`. -/
def episodeScoresOf (chunks : List (String × ℚ)) : List (String × ℚ) :=
  chunks.foldl (fun m c => scoreSet m c.1 (max ((scoreGet m c.1).getD 0) c.2)) []

/-- The fixed score 0.5 attached to text-search matches. -/
def textMatchScore : ℚ := ⟨1, 2, by decide, by decide⟩

/-- The semantic branch of the search route: run `match_chunks` with
`limit * 2`, reduce to per-episode best scores, keep the first `limit`
episode ids (key insertion order), batch-fetch their rows and attach the
scores (`episodeScores.get(ep.id) || 0`). -/
def semanticResults (store : SearchStore) (query : String) (limit : Nat) :
    List ScoredEpisode :=
  let chunks := store.matchChunksRpc query (limit * 2)
  if chunks.isEmpty then []
  else
    let episodeScores := episodeScoresOf chunks
    let episodeIds := (episodeScores.map (fun e => e.1)).take limit
    let episodes := store.episodesIn episodeIds
    episodes.map (fun ep => ⟨ep, (scoreGet episodeScores ep.id).getD 0⟩)

/-- The descending-score comparison of the final
`results.sort((a, b) => b.score - a.score)`. -/
def scoreDesc (a b : ScoredEpisode) : Prop := b.score ≤ a.score

instance : DecidableRel scoreDesc :=
  fun a b => inferInstanceAs (Decidable (b.score ≤ a.score))

instance : IsTotal ScoredEpisode scoreDesc := ⟨fun a b => le_total b.score a.score⟩

instance : IsTrans ScoredEpisode scoreDesc := ⟨fun _ _ _ h h' => le_trans h' h⟩

/-- The semantic results the route actually computes: `semanticResults`
for `semantic`/`hybrid` requests, nothing for `text` requests. -/
def semPart (store : SearchStore) (query : String) (ty : SearchType)
    (limit : Nat) : List ScoredEpisode :=
  if ty = .semantic ∨ ty = .hybrid then semanticResults store query limit else []

/-- The search route `POST` after validation (its `results` payload):
semantic results for `semantic`/`hybrid`, text-search backfill with fixed
score 0.5 for `text` (or for `hybrid` when semantic recall fell short of
`limit`), skipping episodes already present; then the stable descending
sort by score and the `slice(0, limit)`. -/
def searchPOST (store : SearchStore) (query : String) (ty : SearchType)
    (limit : Nat) : List ScoredEpisode :=
  let results0 := semPart store query ty limit
  let results1 :=
    if ty = .text ∨ (ty = .hybrid ∧ results0.length < limit) then
      let textResults := store.episodesTextSearch query limit
      results0 ++
        ((textResults.filter (fun ep => results0.all (fun r => r.row.id ≠ ep.id))).map
          (fun ep => ⟨ep, textMatchScore⟩))
    else results0
  (List.insertionSort scoreDesc results1).take limit

theorem scoreGet_cons (f : String × ℚ) (rest : List (String × ℚ)) (k : String) :
    scoreGet (f :: rest) k = if f.1 = k then some f.2 else scoreGet rest k := by
  unfold scoreGet
  by_cases h : f.1 = k
  · rw [List.find?_cons_of_pos _ (by simpa using h), if_pos h]
    rfl
  · rw [List.find?_cons_of_neg _ (by simpa using h), if_neg h]

theorem scoreGet_eq_none_iff {m : List (String × ℚ)} {k : String} :
    scoreGet m k = none ↔ k ∉ m.map (fun e => e.1) := by
  induction m with
  | nil => simp [scoreGet]
  | cons f rest ih =>
    rw [scoreGet_cons]
    by_cases h : f.1 = k
    · simp [h]
    · rw [if_neg h, ih]
      have hne : ¬ k = f.1 := fun hk => h hk.symm
      simp [List.mem_cons, hne]

theorem scoreSet_keys (m : List (String × ℚ)) (k : String) (v : ℚ) :
    (scoreSet m k v).map (fun e => e.1) =
      if (scoreGet m k).isSome then m.map (fun e => e.1)
      else m.map (fun e => e.1) ++ [k] := by
  induction m with
  | nil => simp [scoreSet, scoreGet]
  | cons f rest ih =>
    by_cases h : f.1 = k
    · simp [scoreSet, if_pos h, scoreGet_cons, h]
    · simp only [scoreSet, if_neg h, List.map_cons]
      rw [scoreGet_cons, if_neg h]
      by_cases hs : (scoreGet rest k).isSome
      · simp only [hs, if_true] at ih ⊢
        rw [ih]
      · simp only [hs, if_false] at ih ⊢
        rw [ih]
        simp

theorem scoreSet_keys_nodup {m : List (String × ℚ)} (k : String) (v : ℚ)
    (h : (m.map (fun e => e.1)).Nodup) :
    ((scoreSet m k v).map (fun e => e.1)).Nodup := by
  rw [scoreSet_keys]
  by_cases hs : (scoreGet m k).isSome
  · simpa [hs] using h
  · rw [if_neg hs]
    have hnone : scoreGet m k = none := by
      cases hg : scoreGet m k with
      | none => rfl
      | some e => rw [hg] at hs; simp at hs
    have hnot : k ∉ m.map (fun e => e.1) := scoreGet_eq_none_iff.mp hnone
    simp [List.nodup_append, h, hnot]

theorem scoresFold_keys_nodup :
    ∀ (chunks : List (String × ℚ)) (m : List (String × ℚ)),
      (m.map (fun e => e.1)).Nodup →
      ((chunks.foldl (fun m c => scoreSet m c.1 (max ((scoreGet m c.1).getD 0) c.2))
          m).map (fun e => e.1)).Nodup := by
  intro chunks
  induction chunks with
  | nil => intro m h; exact h
  | cons c t ih => intro m h; exact ih _ (scoreSet_keys_nodup _ _ h)

theorem episodeScoresOf_keys_nodup (chunks : List (String × ℚ)) :
    ((episodeScoresOf chunks).map (fun e => e.1)).Nodup :=
  scoresFold_keys_nodup chunks [] (by simp)

theorem semanticResults_score (store : SearchStore) (query : String) (limit : Nat) :
    ∀ r ∈ semanticResults store query limit,
      r.score = (scoreGet (episodeScoresOf (store.matchChunksRpc query (limit * 2)))
        r.row.id).getD 0 := by
  intro r hr
  unfold semanticResults at hr
  dsimp only at hr
  by_cases hemp : (store.matchChunksRpc query (limit * 2)).isEmpty
  · rw [if_pos hemp] at hr
    simp at hr
  · rw [if_neg hemp] at hr
    rw [List.mem_map] at hr
    obtain ⟨ep, _, hrep⟩ := hr
    subst hrep
    rfl

theorem semanticResults_ids_nodup (store : SearchStore) (query : String) (limit : Nat)
    (hsem : ∀ ids : List String, ids.Nodup →
      ((store.episodesIn ids).map (fun e => e.id)).Nodup) :
    ((semanticResults store query limit).map (fun r => r.row.id)).Nodup := by
  unfold semanticResults
  dsimp only
  by_cases hemp : (store.matchChunksRpc query (limit * 2)).isEmpty
  · rw [if_pos hemp]
    simp
  · rw [if_neg hemp]
    have hkeys : (((episodeScoresOf (store.matchChunksRpc query (limit * 2))).map
        (fun e => e.1)).take limit).Nodup :=
      (List.take_sublist _ _).nodup (episodeScoresOf_keys_nodup _)
    have h1 := hsem _ hkeys
    rw [List.map_map]
    exact h1

theorem sortTake_props (R1 : List ScoredEpisode) (limit : Nat)
    (P : ScoredEpisode → Prop)
    (hnodup : (R1.map (fun r => r.row.id)).Nodup)
    (hmem : ∀ r ∈ R1, P r) :
    List.Sorted scoreDesc ((List.insertionSort scoreDesc R1).take limit) ∧
    ((List.insertionSort scoreDesc R1).take limit).length ≤ limit ∧
    (((List.insertionSort scoreDesc R1).take limit).map (fun r => r.row.id)).Nodup ∧
    ∀ r ∈ (List.insertionSort scoreDesc R1).take limit, P r := by
  have hperm : List.Perm (List.insertionSort scoreDesc R1) R1 :=
    List.perm_insertionSort scoreDesc R1
  refine ⟨?_, ?_, ?_, ?_⟩
  · exact (List.sorted_insertionSort scoreDesc R1).sublist (List.take_sublist _ _)
  · rw [List.length_take]
    exact min_le_left _ _
  · have h1 : ((List.insertionSort scoreDesc R1).map (fun r => r.row.id)).Nodup :=
      ((hperm.map (fun r => r.row.id)).symm).nodup hnodup
    rw [List.map_take]
    exact (List.take_sublist _ _).nodup h1
  · intro r hr
    exact hmem r (hperm.subset (List.mem_of_mem_take hr))

/-- C9: the search route's results are sorted descending by score and
truncated to `limit`; no episode id repeats; an episode found only by
text search carries the fixed score 0.5 (`textMatchScore`); and an
episode present among the computed semantic results appears exactly once,
as that semantic entry, whose score is its best chunk similarity.  The
hypotheses state that the store returns rows with distinct primary keys. -/
theorem searchPOST_spec (store : SearchStore) (query : String) (ty : SearchType)
    (limit : Nat)
    (hsem : ∀ ids : List String, ids.Nodup →
      ((store.episodesIn ids).map (fun e => e.id)).Nodup)
    (htext : ((store.episodesTextSearch query limit).map (fun e => e.id)).Nodup) :
    List.Sorted scoreDesc (searchPOST store query ty limit) ∧
    (searchPOST store query ty limit).length ≤ limit ∧
    ((searchPOST store query ty limit).map (fun r => r.row.id)).Nodup ∧
    ∀ r ∈ searchPOST store query ty limit,
      (r.row.id ∉ (semPart store query ty limit).map (fun x => x.row.id) →
        r.score = textMatchScore) ∧
      (r.row.id ∈ (semPart store query ty limit).map (fun x => x.row.id) →
        r ∈ semPart store query ty limit ∧
        r.score = (scoreGet (episodeScoresOf (store.matchChunksRpc query (limit * 2)))
          r.row.id).getD 0) := by
  have hnodup0 : ((semPart store query ty limit).map (fun r => r.row.id)).Nodup := by
    unfold semPart
    split
    · exact semanticResults_ids_nodup store query limit hsem
    · simp
  have hscore0 : ∀ r ∈ semPart store query ty limit,
      r.score = (scoreGet (episodeScoresOf (store.matchChunksRpc query (limit * 2)))
        r.row.id).getD 0 := by
    unfold semPart
    split
    · exact semanticResults_score store query limit
    · simp
  have hP0 : ∀ r ∈ semPart store query ty limit,
      (r.row.id ∉ (semPart store query ty limit).map (fun x => x.row.id) →
        r.score = textMatchScore) ∧
      (r.row.id ∈ (semPart store query ty limit).map (fun x => x.row.id) →
        r ∈ semPart store query ty limit ∧
        r.score = (scoreGet (episodeScoresOf (store.matchChunksRpc query (limit * 2)))
          r.row.id).getD 0) := by
    intro r hr
    constructor
    · intro hnot
      exact absurd (List.mem_map_of_mem (fun x => x.row.id) hr) hnot
    · intro _
      exact ⟨hr, hscore0 r hr⟩
  have hTPnotin : ∀ ep ∈ (store.episodesTextSearch query limit).filter
      (fun ep => (semPart store query ty limit).all (fun r => r.row.id ≠ ep.id)),
      ep.id ∉ (semPart store query ty limit).map (fun x => x.row.id) := by
    intro ep hep hin
    rw [List.mem_filter] at hep
    rw [List.mem_map] at hin
    obtain ⟨r0, hr0, hid⟩ := hin
    have hall := hep.2
    rw [List.all_eq_true] at hall
    have hne := hall r0 hr0
    simp only [ne_eq, decide_not, Bool.not_eq_true', decide_eq_false_iff_not] at hne
    exact hne hid
  by_cases hb : ty = .text ∨ (ty = .hybrid ∧ (semPart store query ty limit).length < limit)
  · have hout : searchPOST store query ty limit =
        (List.insertionSort scoreDesc ((semPart store query ty limit) ++
          (((store.episodesTextSearch query limit).filter
            (fun ep => (semPart store query ty limit).all (fun r => r.row.id ≠ ep.id))).map
            (fun ep => ⟨ep, textMatchScore⟩)))).take limit := by
      unfold searchPOST
      dsimp only
      rw [if_pos hb]
    rw [hout]
    apply sortTake_props
    · rw [List.map_append]
      rw [List.nodup_append]
      refine ⟨hnodup0, ?_, ?_⟩
      · rw [List.map_map]
        have hsub : ((store.episodesTextSearch query limit).filter
            (fun ep => (semPart store query ty limit).all (fun r => r.row.id ≠ ep.id))).Sublist
            (store.episodesTextSearch query limit) := List.filter_sublist _
        exact (hsub.map (fun e => e.id)).nodup htext
      · intro a ha hb'
        rw [List.map_map] at hb'
        rw [List.mem_map] at hb'
        obtain ⟨ep, hep, hepid⟩ := hb'
        have := hTPnotin ep hep
        have haid : a = ep.id := hepid.symm
        exact this (haid ▸ ha)
    · intro r hr
      rw [List.mem_append] at hr
      rcases hr with hr | hr
      · exact hP0 r hr
      · rw [List.mem_map] at hr
        obtain ⟨ep, hep, hre⟩ := hr
        have hnot := hTPnotin ep hep
        constructor
        · intro _
          rw [← hre]
        · intro hin
          rw [← hre] at hin
          exact absurd hin hnot
  · have hout : searchPOST store query ty limit =
        (List.insertionSort scoreDesc (semPart store query ty limit)).take limit := by
      unfold searchPOST
      dsimp only
      rw [if_neg hb]
    rw [hout]
    exact sortTake_props _ _ _ hnodup0 hP0

/-- Text-search row for guest "Bob Moesta". -/
def rowE1 : EpisodeRow := ⟨"e1", "Episode one", "Bob Moesta", "e1-slug", "2024-01-01", none⟩

/-- Text-search row for guest "Bob Moesta 2.0". -/
def rowE2 : EpisodeRow := ⟨"e2", "Episode two", "Bob Moesta 2.0", "e2-slug", "2024-01-02", none⟩

/-- A search store for the C9 witness: one semantic chunk hit on episode
e1, and a text search for "Bob" matching both Bob Moesta episodes. -/
def storeC9 : SearchStore :=
  { matchChunksRpc := fun _ _ => [("e1", simPt9)]
    episodesIn := fun ids => ids.map (fun i => ⟨i, "T", "G", "s", "d", none⟩)
    episodesTextSearch := fun _ _ => [rowE1, rowE2] }

theorem storeC9_in_nodup :
    ∀ ids : List String, ids.Nodup →
      ((storeC9.episodesIn ids).map (fun e => e.id)).Nodup := by
  intro ids h
  show ((ids.map (fun i => (⟨i, "T", "G", "s", "d", none⟩ : EpisodeRow))).map
    (fun e => e.id)).Nodup
  rw [List.map_map]
  have hcomp : ((fun (e : EpisodeRow) => e.id) ∘
      (fun i => (⟨i, "T", "G", "s", "d", none⟩ : EpisodeRow))) = fun i => i := rfl
  rw [hcomp]
  simpa using h

/-- Witness for C9 at a concrete store and hybrid query: e1 is matched
both semantically and by text and appears once, with its semantic score;
e2 is found only by text search and carries the fixed score 0.5. -/
theorem searchPOST_spec_witness :
    ((∀ ids : List String, ids.Nodup →
        ((storeC9.episodesIn ids).map (fun e => e.id)).Nodup) ∧
      ((storeC9.episodesTextSearch "Bob" 5).map (fun e => e.id)).Nodup) ∧
    List.Sorted scoreDesc (searchPOST storeC9 "Bob" .hybrid 5) ∧
    ((searchPOST storeC9 "Bob" .hybrid 5).map (fun r => r.row.id)).Nodup ∧
    searchPOST storeC9 "Bob" .hybrid 5 =
      [⟨⟨"e1", "T", "G", "s", "d", none⟩, max 0 simPt9⟩, ⟨rowE2, textMatchScore⟩] :=
  ⟨⟨storeC9_in_nodup, by decide⟩,
   (searchPOST_spec storeC9 "Bob" .hybrid 5 storeC9_in_nodup (by decide)).1,
   (searchPOST_spec storeC9 "Bob" .hybrid 5 storeC9_in_nodup (by decide)).2.2.1,
   by decide⟩

/-- The string comparison of the JS default `Array.prototype.sort()` on
timestamps: lexicographic over the character lists (code-point order,
which coincides with the UTF-16 code-unit order on the `H:MM[:SS]` data
here).  `tsLe a b` holds when `a` sorts no later than `b`. -/
def tsLe (a b : String) : Prop := ¬ List.Lex (· < ·) b.data a.data

instance : DecidableRel tsLe :=
  fun a b => inferInstanceAs (Decidable ¬ _)

theorem tsLe_refl (a : String) : tsLe a a :=
  fun h => (IsAsymm.asymm _ _ h) h

instance : IsTotal String tsLe :=
  ⟨fun a b => by
    by_cases h : List.Lex (· < ·) b.data a.data
    · exact Or.inr (IsAsymm.asymm _ _ h)
    · exact Or.inl h⟩

theorem lexLt_trichotomy (x y : List Char) :
    List.Lex (· < ·) x y ∨ x = y ∨ List.Lex (· < ·) y x :=
  (inferInstanceAs (IsTrichotomous (List Char) (List.Lex (· < ·)))).trichotomous x y

instance : IsTrans String tsLe :=
  ⟨fun a b c hab hbc hca => by
    rcases lexLt_trichotomy a.data b.data with h | h | h
    · exact hbc (IsTrans.trans _ _ _ hca h)
    · exact hbc (h ▸ hca)
    · exact hab h⟩

theorem tsLe_antisymm {a b : String} (hab : tsLe a b) (hba : tsLe b a) : a = b := by
  rcases lexLt_trichotomy a.data b.data with h | h | h
  · exact absurd h hba
  · exact String.ext h
  · exact absurd h hab

/-- Keep the smaller string (first on ties). -/
def lexSmaller (a b : String) : String := if tsLe a b then a else b

/-- Keep the larger string (first on ties). -/
def lexLarger (a b : String) : String := if tsLe b a then a else b

/-- The lexicographic minimum of a string list. -/
def lexMin : List String → Option String
  | [] => none
  | x :: rest => some (rest.foldl lexSmaller x)

/-- The lexicographic maximum of a string list. -/
def lexMax : List String → Option String
  | [] => none
  | x :: rest => some (rest.foldl lexLarger x)

theorem foldl_lexSmaller_mem :
    ∀ (rest : List String) (x : String), rest.foldl lexSmaller x ∈ x :: rest := by
  intro rest
  induction rest with
  | nil => intro x; simp
  | cons r t ih =>
    intro x
    rw [List.foldl_cons]
    rcases List.mem_cons.mp (ih (lexSmaller x r)) with h' | h'
    · rw [h']
      unfold lexSmaller
      by_cases hc : tsLe x r
      · rw [if_pos hc]; simp
      · rw [if_neg hc]; simp
    · exact List.mem_cons_of_mem _ (List.mem_cons_of_mem _ h')

theorem foldl_lexSmaller_le :
    ∀ (rest : List String) (x : String), ∀ y ∈ x :: rest,
      tsLe (rest.foldl lexSmaller x) y := by
  intro rest
  induction rest with
  | nil =>
    intro x y hy
    rw [List.mem_cons] at hy
    rcases hy with hy | hy
    · subst hy; exact tsLe_refl _
    · simp at hy
  | cons r t ih =>
    intro x y hy
    rw [List.foldl_cons]
    have hfirst : tsLe (t.foldl lexSmaller (lexSmaller x r)) (lexSmaller x r) :=
      ih (lexSmaller x r) _ (by simp)
    have hxr : tsLe (lexSmaller x r) x ∧ tsLe (lexSmaller x r) r := by
      unfold lexSmaller
      by_cases hc : tsLe x r
      · rw [if_pos hc]; exact ⟨tsLe_refl _, hc⟩
      · rw [if_neg hc]
        rcases total_of tsLe x r with h | h
        · exact absurd h hc
        · exact ⟨h, tsLe_refl _⟩
    rw [List.mem_cons] at hy
    rcases hy with hy | hy
    · subst hy
      exact IsTrans.trans _ _ _ hfirst hxr.1
    · rw [List.mem_cons] at hy
      rcases hy with hy | hy
      · subst hy
        exact IsTrans.trans _ _ _ hfirst hxr.2
      · exact ih (lexSmaller x r) y (List.mem_cons_of_mem _ hy)

theorem foldl_lexLarger_mem :
    ∀ (rest : List String) (x : String), rest.foldl lexLarger x ∈ x :: rest := by
  intro rest
  induction rest with
  | nil => intro x; simp
  | cons r t ih =>
    intro x
    rw [List.foldl_cons]
    rcases List.mem_cons.mp (ih (lexLarger x r)) with h' | h'
    · rw [h']
      unfold lexLarger
      by_cases hc : tsLe r x
      · rw [if_pos hc]; simp
      · rw [if_neg hc]; simp
    · exact List.mem_cons_of_mem _ (List.mem_cons_of_mem _ h')

theorem foldl_lexLarger_ge :
    ∀ (rest : List String) (x : String), ∀ y ∈ x :: rest,
      tsLe y (rest.foldl lexLarger x) := by
  intro rest
  induction rest with
  | nil =>
    intro x y hy
    rw [List.mem_cons] at hy
    rcases hy with hy | hy
    · subst hy; exact tsLe_refl _
    · simp at hy
  | cons r t ih =>
    intro x y hy
    rw [List.foldl_cons]
    have hfirst : tsLe (lexLarger x r) (t.foldl lexLarger (lexLarger x r)) :=
      ih (lexLarger x r) _ (by simp)
    have hxr : tsLe x (lexLarger x r) ∧ tsLe r (lexLarger x r) := by
      unfold lexLarger
      by_cases hc : tsLe r x
      · rw [if_pos hc]; exact ⟨tsLe_refl _, hc⟩
      · rw [if_neg hc]
        rcases total_of tsLe r x with h | h
        · exact absurd h hc
        · exact ⟨h, tsLe_refl _⟩
    rw [List.mem_cons] at hy
    rcases hy with hy | hy
    · subst hy
      exact IsTrans.trans _ _ _ hxr.1 hfirst
    · rw [List.mem_cons] at hy
      rcases hy with hy | hy
      · subst hy
        exact IsTrans.trans _ _ _ hxr.2 hfirst
      · exact ih (lexLarger x r) y (List.mem_cons_of_mem _ hy)

theorem insertionSort_head_lexMin (tss : List String) :
    (List.insertionSort tsLe tss).head? = lexMin tss := by
  cases htss : tss with
  | nil => rfl
  | cons x rest =>
    have hperm : List.Perm (List.insertionSort tsLe (x :: rest)) (x :: rest) :=
      List.perm_insertionSort tsLe _
    have hsorted := List.sorted_insertionSort tsLe (x :: rest)
    cases hs : List.insertionSort tsLe (x :: rest) with
    | nil =>
      rw [hs] at hperm
      exact absurd (List.perm_nil.mp hperm.symm) (by simp)
    | cons a t =>
      rw [hs] at hperm hsorted
      have ham : a ∈ x :: rest := hperm.subset (by simp)
      have hmmem : rest.foldl lexSmaller x ∈ x :: rest := foldl_lexSmaller_mem rest x
      have h1 : tsLe a (rest.foldl lexSmaller x) := by
        rcases List.mem_cons.mp (hperm.symm.subset hmmem) with h | h
        · exact h ▸ tsLe_refl _
        · exact List.rel_of_sorted_cons hsorted _ h
      have h2 : tsLe (rest.foldl lexSmaller x) a := foldl_lexSmaller_le rest x a ham
      rw [List.head?_cons, lexMin]
      rw [tsLe_antisymm h1 h2]

theorem sorted_rel_getLast :
    ∀ (l : List String) (hs : List.Sorted tsLe l) (hl : l ≠ []),
      ∀ y ∈ l, tsLe y (l.getLast hl) := by
  intro l
  induction l with
  | nil => intro _ hl; exact absurd rfl hl
  | cons a t ih =>
    intro hs hl y hy
    cases t with
    | nil =>
      rw [List.mem_cons] at hy
      rcases hy with hy | hy
      · subst hy; exact tsLe_refl _
      · simp at hy
    | cons b t2 =>
      have hne : (b :: t2) ≠ [] := by simp
      rw [List.getLast_cons hne]
      rw [List.mem_cons] at hy
      rcases hy with hy | hy
      · subst hy
        have hlast_mem : (b :: t2).getLast hne ∈ b :: t2 := List.getLast_mem hne
        exact List.rel_of_sorted_cons hs _ hlast_mem
      · exact ih hs.of_cons hne y hy

theorem insertionSort_getLast_lexMax (tss : List String) :
    (List.insertionSort tsLe tss).getLast? = lexMax tss := by
  cases htss : tss with
  | nil => rfl
  | cons x rest =>
    have hperm : List.Perm (List.insertionSort tsLe (x :: rest)) (x :: rest) :=
      List.perm_insertionSort tsLe _
    have hsorted := List.sorted_insertionSort tsLe (x :: rest)
    have hne : List.insertionSort tsLe (x :: rest) ≠ [] := by
      intro h
      rw [h] at hperm
      exact absurd (List.perm_nil.mp hperm.symm) (by simp)
    rw [List.getLast?_eq_getLast _ hne]
    have hlmem : (List.insertionSort tsLe (x :: rest)).getLast hne ∈ x :: rest :=
      hperm.subset (List.getLast_mem hne)
    have hmmem : rest.foldl lexLarger x ∈ x :: rest := foldl_lexLarger_mem rest x
    have h1 : tsLe ((List.insertionSort tsLe (x :: rest)).getLast hne)
        (rest.foldl lexLarger x) :=
      foldl_lexLarger_ge rest x _ hlmem
    have h2 : tsLe (rest.foldl lexLarger x)
        ((List.insertionSort tsLe (x :: rest)).getLast hne) :=
      sorted_rel_getLast _ hsorted hne _ (hperm.symm.subset hmmem)
    rw [lexMax, tsLe_antisymm h1 h2]

/-- A response-facing source citation (global chat). -/
structure SourceCitation where
  episodeId : String
  episodeTitle : String
  episodeSlug : String
  timestamp : Option String
  snippet : String
deriving DecidableEq

/-- An entry of `episodeSourceMap`, keyed by episode id. -/
structure EpisodeSourceEntry where
  episodeId : String
  episodeTitle : String
  episodeSlug : String
  timestamps : List String
  guestName : String
deriving DecidableEq

/-- `episodeMap.get(id)` where `episodeMap = new Map(episodes.map(e => [e.id, e]))`:
the last row with that id wins. -/
def epLookup (episodes : List EpisodeDetail) (i : String) : Option EpisodeDetail :=
  episodes.reverse.find? (fun e => e.id = i)

/-- `episodeSourceMap.has(id)`. -/
def srcHas (m : List EpisodeSourceEntry) (i : String) : Bool :=
  m.any (fun e => e.episodeId = i)

/-- `episodeSourceMap.get(id)!.timestamps.push(t)`: append `t` to the
timestamps of the entry keyed by `i`. -/
def pushTimestamp : List EpisodeSourceEntry → String → String → List EpisodeSourceEntry
  | [], _, _ => []
  | e :: rest, i, t =>
    if e.episodeId = i then { e with timestamps := e.timestamps ++ [t] } :: rest
    else e :: pushTimestamp rest i t

/-- The body of the `for (const chunk of chunks)` loop building
`episodeSourceMap`: skip chunks whose episode has no metadata, create the
entry on first appearance, and push the chunk's timestamp when present. -/
def srcFold (episodes : List EpisodeDetail) (m : List EpisodeSourceEntry)
    (c : ChunkMatch) : List EpisodeSourceEntry :=
  match epLookup episodes c.episode_id with
  | none => m
  | some ep =>
    let m1 :=
      if srcHas m c.episode_id then m
      else m ++ [⟨c.episode_id, ep.title, ep.slug, [], ep.guest_name⟩]
    match c.start_timestamp with
    | some t => pushTimestamp m1 c.episode_id t
    | none => m1

/-- The `sources = Array.from(...).slice(0, 5).map(...)` body: sort the
collected timestamps (JS default string sort), report `first - last` for
two or more, the single timestamp for one, no timestamp for none. -/
def mkCitation (src : EpisodeSourceEntry) : SourceCitation :=
  let timestamp : Option String :=
    if 1 < src.timestamps.length then
      match (List.insertionSort tsLe src.timestamps).head?,
          (List.insertionSort tsLe src.timestamps).getLast? with
      | some a, some b => some (a ++ " - " ++ b)
      | _, _ => none
    else src.timestamps.head?
  ⟨src.episodeId, src.episodeTitle, src.episodeSlug, timestamp,
   "Guest: " ++ src.guestName⟩

/-- The source-citation list of the global-chat branch: fold the fused
chunks into `episodeSourceMap`, keep the first five entries, and render
each citation. -/
def buildSources (chunks : List ChunkMatch) (episodes : List EpisodeDetail) :
    List SourceCitation :=
  ((chunks.foldl (srcFold episodes) []).take 5).map mkCitation

/-- First-appearance deduplication of a string list (spec-side helper). -/
def dedupFirstGo (seen : List String) : List String → List String
  | [] => []
  | x :: rest =>
    if x ∈ seen then dedupFirstGo seen rest
    else x :: dedupFirstGo (seen ++ [x]) rest

/-- Modelled from the spec: the citation timestamp rule — for two or more
timestamps, the lexicographic minimum and maximum joined as
`"min - max"`; for exactly one, that timestamp; for none, no field. -/
def specTimestampRange (tss : List String) : Option String :=
  if 2 ≤ tss.length then
    match lexMin tss, lexMax tss with
    | some a, some b => some (a ++ " - " ++ b)
    | _, _ => none
  else tss.head?

/-- Modelled from the spec: one citation per distinct episode among the
chunks, in first-appearance order over the ranked chunks, capped at 5,
with the timestamp rule of `specTimestampRange` applied to all of that
episode's chunk timestamps.  (The `none` branch is unreachable under the
metadata-coverage hypothesis of the theorem.) -/
def specSources (chunks : List ChunkMatch) (episodes : List EpisodeDetail) :
    List SourceCitation :=
  ((dedupFirstGo [] (chunks.map (fun c => c.episode_id))).take 5).map (fun i =>
    match epLookup episodes i with
    | some ep =>
      ⟨i, ep.title, ep.slug,
       specTimestampRange ((chunks.filter (fun c => c.episode_id = i)).filterMap
         (fun c => c.start_timestamp)),
       "Guest: " ++ ep.guest_name⟩
    | none => ⟨i, "", "", none, ""⟩)

/-- The entry the fold builds for episode `i` after consuming `chunks`. -/
def entryFor (chunks : List ChunkMatch) (episodes : List EpisodeDetail)
    (i : String) : EpisodeSourceEntry :=
  match epLookup episodes i with
  | some ep =>
    ⟨i, ep.title, ep.slug,
     (chunks.filter (fun c => c.episode_id = i)).filterMap (fun c => c.start_timestamp),
     ep.guest_name⟩
  | none => ⟨i, "", "", [], ""⟩

theorem entryFor_id (chunks : List ChunkMatch) (episodes : List EpisodeDetail)
    (i : String) : (entryFor chunks episodes i).episodeId = i := by
  unfold entryFor
  cases epLookup episodes i <;> rfl

theorem mem_dedupFirstGo :
    ∀ (xs seen : List String) {i : String},
      i ∈ dedupFirstGo seen xs ↔ (i ∈ xs ∧ i ∉ seen) := by
  intro xs
  induction xs with
  | nil => intro seen i; simp [dedupFirstGo]
  | cons x rest ih =>
    intro seen i
    unfold dedupFirstGo
    by_cases hx : x ∈ seen
    · rw [if_pos hx, ih]
      constructor
      · rintro ⟨h1, h2⟩
        exact ⟨List.mem_cons_of_mem _ h1, h2⟩
      · rintro ⟨h1, h2⟩
        rcases List.mem_cons.mp h1 with h | h
        · exact absurd (h ▸ hx) h2
        · exact ⟨h, h2⟩
    · rw [if_neg hx]
      rw [List.mem_cons, ih]
      constructor
      · rintro (h | ⟨h1, h2⟩)
        · exact ⟨h ▸ List.mem_cons_self x rest, h ▸ hx⟩
        · refine ⟨List.mem_cons_of_mem _ h1, ?_⟩
          intro hs
          exact h2 (List.mem_append_left _ hs)
      · rintro ⟨h1, h2⟩
        by_cases hxi : i = x
        · exact Or.inl hxi
        · rcases List.mem_cons.mp h1 with h | h
          · exact absurd h hxi
          · refine Or.inr ⟨h, ?_⟩
            intro hs
            rcases List.mem_append.mp hs with hs | hs
            · exact h2 hs
            · exact hxi (by simpa using hs)

theorem dedupFirstGo_nodup : ∀ (xs seen : List String), (dedupFirstGo seen xs).Nodup := by
  intro xs
  induction xs with
  | nil => intro seen; simp [dedupFirstGo]
  | cons x rest ih =>
    intro seen
    unfold dedupFirstGo
    by_cases hx : x ∈ seen
    · rw [if_pos hx]
      exact ih seen
    · rw [if_neg hx]
      rw [List.nodup_cons]
      refine ⟨?_, ih _⟩
      intro hmem
      have := (mem_dedupFirstGo rest (seen ++ [x])).mp hmem
      exact this.2 (List.mem_append.mpr (Or.inr (by simp)))

theorem dedupFirstGo_append :
    ∀ (xs : List String) (x : String) (seen : List String),
      dedupFirstGo seen (xs ++ [x]) =
        dedupFirstGo seen xs ++ (if x ∈ seen ∨ x ∈ xs then [] else [x]) := by
  intro xs
  induction xs with
  | nil =>
    intro x seen
    rw [List.nil_append]
    unfold dedupFirstGo
    by_cases hx : x ∈ seen
    · rw [if_pos hx]
      simp [dedupFirstGo, hx]
    · rw [if_neg hx]
      simp [dedupFirstGo, hx]
  | cons y ys ih =>
    intro x seen
    rw [List.cons_append]
    unfold dedupFirstGo
    by_cases hy : y ∈ seen
    · rw [if_pos hy, if_pos hy, ih]
      have hcond : (x ∈ seen ∨ x ∈ ys) ↔ (x ∈ seen ∨ x ∈ y :: ys) := by
        constructor
        · rintro (h | h)
          · exact Or.inl h
          · exact Or.inr (List.mem_cons_of_mem _ h)
        · rintro (h | h)
          · exact Or.inl h
          · rcases List.mem_cons.mp h with h' | h'
            · exact Or.inl (h' ▸ hy)
            · exact Or.inr h'
      rw [if_congr hcond rfl rfl]
    · rw [if_neg hy, if_neg hy, ih, List.cons_append]
      have hcond : (x ∈ seen ++ [y] ∨ x ∈ ys) ↔ (x ∈ seen ∨ x ∈ y :: ys) := by
        simp only [List.mem_append, List.mem_cons, List.mem_singleton]
        tauto
      rw [if_congr hcond rfl rfl]

theorem filter_ep_nil {chunks : List ChunkMatch} {i : String}
    (h : i ∉ chunks.map (fun c => c.episode_id)) :
    chunks.filter (fun c => c.episode_id = i) = [] := by
  rw [List.filter_eq_nil_iff]
  intro c hc
  simp only [decide_eq_true_eq]
  intro he
  exact h (List.mem_map.mpr ⟨c, hc, he⟩)

theorem entryFor_append (pref : List ChunkMatch) (c : ChunkMatch)
    (episodes : List EpisodeDetail) (i : String)
    (hsome : (epLookup episodes i).isSome) :
    entryFor (pref ++ [c]) episodes i =
      if c.episode_id = i then
        { entryFor pref episodes i with
          timestamps := (entryFor pref episodes i).timestamps ++
            c.start_timestamp.toList }
      else entryFor pref episodes i := by
  obtain ⟨ep, hep⟩ := Option.isSome_iff_exists.mp hsome
  unfold entryFor
  rw [hep]
  by_cases hc : c.episode_id = i
  · rw [if_pos hc]
    rw [List.filter_append, List.filterMap_append]
    have h1 : List.filter (fun x => x.episode_id = i) [c] = [c] := by
      simp [List.filter, hc]
    rw [h1]
    have h2 : List.filterMap (fun x => x.start_timestamp) [c] =
        c.start_timestamp.toList := by
      cases hts : c.start_timestamp with
      | none => simp [List.filterMap_cons, hts]
      | some t => simp [List.filterMap_cons, hts]
    rw [h2]
  · rw [if_neg hc]
    rw [List.filter_append]
    have h1 : List.filter (fun x => x.episode_id = i) [c] = [] := by
      simp [List.filter, hc]
    rw [h1, List.append_nil]

theorem srcHas_map (f : String → EpisodeSourceEntry)
    (hid : ∀ j, (f j).episodeId = j) (L : List String) (i : String) :
    srcHas (L.map f) i = true ↔ i ∈ L := by
  unfold srcHas
  rw [List.any_eq_true]
  constructor
  · rintro ⟨e, he, hpe⟩
    rw [List.mem_map] at he
    obtain ⟨j, hj, hje⟩ := he
    have : e.episodeId = i := by simpa using hpe
    rw [← hje, hid] at this
    exact this ▸ hj
  · intro hmem
    exact ⟨f i, List.mem_map_of_mem f hmem, by simp [hid]⟩

theorem pushTimestamp_map (f : String → EpisodeSourceEntry)
    (hid : ∀ j, (f j).episodeId = j) :
    ∀ (L : List String) (i t : String), L.Nodup →
      pushTimestamp (L.map f) i t =
        L.map (fun j => if j = i then
          { f j with timestamps := (f j).timestamps ++ [t] } else f j) := by
  intro L
  induction L with
  | nil => intro i t _; rfl
  | cons j rest ih =>
    intro i t hnd
    rw [List.map_cons, List.map_cons]
    unfold pushTimestamp
    rw [hid]
    by_cases hj : j = i
    · rw [if_pos hj, if_pos hj]
      congr 1
      · simp [hid]
      · apply (List.map_congr_left ?_).symm
        intro a ha
        have hai : a ≠ i := by
          intro hia
          rw [List.nodup_cons] at hnd
          exact hnd.1 ((hj.trans hia.symm) ▸ ha)
        rw [if_neg hai]
    · rw [if_neg hj, if_neg hj]
      rw [List.nodup_cons] at hnd
      rw [ih i t hnd.2]

theorem pushTimestamp_append_last (xs : List EpisodeSourceEntry)
    (e : EpisodeSourceEntry) (i t : String)
    (hxs : ∀ x ∈ xs, x.episodeId ≠ i) (he : e.episodeId = i) :
    pushTimestamp (xs ++ [e]) i t =
      xs ++ [{ e with timestamps := e.timestamps ++ [t] }] := by
  induction xs with
  | nil =>
    rw [List.nil_append, List.nil_append]
    unfold pushTimestamp
    rw [if_pos he]
  | cons x rest ih =>
    rw [List.cons_append, List.cons_append]
    unfold pushTimestamp
    rw [if_neg (hxs x (by simp))]
    rw [ih (fun y hy => hxs y (List.mem_cons_of_mem _ hy))]

theorem srcFold_chunks (episodes : List EpisodeDetail) :
    ∀ (chunks : List ChunkMatch),
      (∀ c ∈ chunks, (epLookup episodes c.episode_id).isSome) →
      chunks.foldl (srcFold episodes) [] =
        (dedupFirstGo [] (chunks.map (fun c => c.episode_id))).map
          (entryFor chunks episodes) := by
  intro chunks
  induction chunks using List.reverseRecOn with
  | nil => intro _; rfl
  | append_singleton pref c ih =>
    intro hcov
    have hcovp : ∀ x ∈ pref, (epLookup episodes x.episode_id).isSome :=
      fun x hx => hcov x (List.mem_append_left _ hx)
    have hcsome : (epLookup episodes c.episode_id).isSome := hcov c (by simp)
    obtain ⟨ep, hep⟩ := Option.isSome_iff_exists.mp hcsome
    have hjcov : ∀ j ∈ dedupFirstGo [] (pref.map (fun x => x.episode_id)),
        (epLookup episodes j).isSome := by
      intro j hj
      have hmem := ((mem_dedupFirstGo _ _).mp hj).1
      rw [List.mem_map] at hmem
      obtain ⟨x, hx, hxe⟩ := hmem
      exact hxe ▸ hcovp x hx
    have hDnodup : (dedupFirstGo [] (pref.map (fun x => x.episode_id))).Nodup :=
      dedupFirstGo_nodup _ _
    rw [List.foldl_append, List.foldl_cons, List.foldl_nil, ih hcovp]
    rw [List.map_append]
    simp only [List.map_cons, List.map_nil]
    rw [dedupFirstGo_append]
    simp only [List.not_mem_nil, false_or]
    by_cases hin : c.episode_id ∈ pref.map (fun x => x.episode_id)
    · rw [if_pos hin, List.append_nil]
      have hinD : c.episode_id ∈ dedupFirstGo [] (pref.map (fun x => x.episode_id)) :=
        (mem_dedupFirstGo _ _).mpr ⟨hin, by simp⟩
      have hhas : srcHas ((dedupFirstGo [] (pref.map (fun x => x.episode_id))).map
          (entryFor pref episodes)) c.episode_id = true :=
        (srcHas_map _ (entryFor_id pref episodes) _ _).mpr hinD
      have hnew : (dedupFirstGo [] (pref.map (fun x => x.episode_id))).map
          (entryFor (pref ++ [c]) episodes) =
          (dedupFirstGo [] (pref.map (fun x => x.episode_id))).map
            (fun j => if c.episode_id = j then
              { entryFor pref episodes j with
                timestamps := (entryFor pref episodes j).timestamps ++
                  c.start_timestamp.toList }
            else entryFor pref episodes j) :=
        List.map_congr_left (fun j hj => entryFor_append pref c episodes j (hjcov j hj))
      rw [hnew]
      cases hts : c.start_timestamp with
      | some t =>
        simp only [srcFold, hep, hts, hhas, if_true]
        rw [pushTimestamp_map (entryFor pref episodes) (entryFor_id pref episodes)
          _ _ _ hDnodup]
        apply List.map_congr_left
        intro j hj
        by_cases hje : j = c.episode_id
        · rw [if_pos hje, if_pos hje.symm]
          simp [Option.toList]
        · rw [if_neg hje, if_neg (fun h => hje h.symm)]
      | none =>
        simp only [srcFold, hep, hts, hhas, if_true]
        apply (List.map_congr_left ?_).symm
        intro j hj
        by_cases hje : c.episode_id = j
        · rw [if_pos hje]
          simp [Option.toList]
        · rw [if_neg hje]
    · rw [if_neg hin]
      have hninD : c.episode_id ∉ dedupFirstGo [] (pref.map (fun x => x.episode_id)) :=
        fun h => hin ((mem_dedupFirstGo _ _).mp h).1
      have hhas : ¬ (srcHas ((dedupFirstGo [] (pref.map (fun x => x.episode_id))).map
          (entryFor pref episodes)) c.episode_id = true) :=
        fun h => hninD ((srcHas_map _ (entryFor_id pref episodes) _ _).mp h)
      have hMne : ∀ x ∈ (dedupFirstGo [] (pref.map (fun y => y.episode_id))).map
          (entryFor pref episodes), x.episodeId ≠ c.episode_id := by
        intro x hx
        rw [List.mem_map] at hx
        obtain ⟨j, hj, hjx⟩ := hx
        rw [← hjx, entryFor_id]
        exact fun h => hninD (h ▸ hj)
      have hmapD : (dedupFirstGo [] (pref.map (fun x => x.episode_id))).map
          (entryFor (pref ++ [c]) episodes) =
          (dedupFirstGo [] (pref.map (fun x => x.episode_id))).map
            (entryFor pref episodes) := by
        apply List.map_congr_left
        intro j hj
        rw [entryFor_append pref c episodes j (hjcov j hj)]
        have hje : ¬ (c.episode_id = j) := by
          intro h
          exact hninD (h ▸ hj)
        rw [if_neg hje]
      have hentry : entryFor (pref ++ [c]) episodes c.episode_id =
          ⟨c.episode_id, ep.title, ep.slug, c.start_timestamp.toList,
            ep.guest_name⟩ := by
        rw [entryFor_append pref c episodes c.episode_id hcsome]
        rw [if_pos rfl]
        unfold entryFor
        rw [hep]
        rw [filter_ep_nil hin]
        simp [List.filterMap]
      rw [List.map_append, hmapD, List.map_cons, List.map_nil, hentry]
      cases hts : c.start_timestamp with
      | some t =>
        simp only [srcFold, hep, hts, hhas, Bool.false_eq_true, if_false]
        rw [pushTimestamp_append_last _ _ _ _ hMne rfl]
        simp [Option.toList]
      | none =>
        simp only [srcFold, hep, hts, hhas, Bool.false_eq_true, if_false]
        simp [Option.toList]

/-- C7: for every fused chunk list and episode metadata map covering the
chunks' episodes, the assembled sources are exactly one citation per
distinct episode among the chunks, in first-appearance order over the
ranked chunks, capped at 5, where an episode with two or more timestamped
chunks reports `"min - max"` of its chunks' timestamps (lexicographic),
one timestamped chunk reports that single timestamp, and none reports no
timestamp field. -/
theorem buildSources_spec (chunks : List ChunkMatch) (episodes : List EpisodeDetail)
    (hcov : ∀ c ∈ chunks, (epLookup episodes c.episode_id).isSome) :
    buildSources chunks episodes = specSources chunks episodes := by
  unfold buildSources specSources
  rw [srcFold_chunks episodes chunks hcov]
  rw [← List.map_take, List.map_map]
  apply List.map_congr_left
  intro i hi
  have hiD := List.mem_of_mem_take hi
  have hic : i ∈ chunks.map (fun c => c.episode_id) :=
    ((mem_dedupFirstGo _ _).mp hiD).1
  have hsome : (epLookup episodes i).isSome := by
    rw [List.mem_map] at hic
    obtain ⟨x, hx, hxe⟩ := hic
    exact hxe ▸ hcov x hx
  obtain ⟨ep, hep⟩ := Option.isSome_iff_exists.mp hsome
  show mkCitation (entryFor chunks episodes i) = _
  unfold mkCitation entryFor
  rw [hep]
  dsimp only
  congr 1
  unfold specTimestampRange
  rw [insertionSort_head_lexMin, insertionSort_getLast_lexMax]
  exact if_congr Iff.rfl rfl rfl

/-- Episode metadata for the C7 witness. -/
def epE : EpisodeDetail := ⟨"E", "Great Episode", "great-episode", "Jane Guest", none⟩

/-- First fused chunk of episode E, timestamped "1:00". -/
def chunkT1 : ChunkMatch := ⟨"k1", "E", "t1", 0, some "1:00", none, simPt9⟩

/-- Second fused chunk of episode E, timestamped "5:30". -/
def chunkT2 : ChunkMatch := ⟨"k2", "E", "t2", 1, some "5:30", none, simPt4⟩

/-- Third fused chunk of episode E, timestamped "3:15". -/
def chunkT3 : ChunkMatch := ⟨"k3", "E", "t3", 2, some "3:15", none, simPt1⟩

/-- Witness for C7: three chunks of one episode with timestamps "1:00",
"5:30", "3:15" produce a single citation whose timestamp is
"1:00 - 5:30". -/
theorem buildSources_spec_witness :
    (∀ c ∈ [chunkT1, chunkT2, chunkT3], (epLookup [epE] c.episode_id).isSome) ∧
    buildSources [chunkT1, chunkT2, chunkT3] [epE] =
      specSources [chunkT1, chunkT2, chunkT3] [epE] ∧
    (buildSources [chunkT1, chunkT2, chunkT3] [epE]).map (fun s => s.timestamp) =
      [some "1:00 - 5:30"] :=
  ⟨by decide, buildSources_spec _ _ (by decide), by decide⟩
